import Mathlib

/-!
Verification of the `seeker_fs` Go library (yalue/seeker_fs): a packed,
read-only filesystem stored in a flat byte stream.

The development shallowly embeds the two halves of the library:

* the writer (`create_seeker_fs.go`): `CreateSeekerFS` traverses a source
  filesystem depth-first with an explicit stack, reserves a 64-byte header
  slot per entry, appends names and payloads, and back-patches each header;
* the reader (`seeker_fs.go`): `NewSeekerFS` decodes and validates the root
  header, `Open` resolves slash-separated paths by an on-disk binary search
  over sorted directory entries, and file handles support `Read`/`Seek`.

Go machine integers are modelled as `Nat` (they are used as non-negative
sizes and offsets; the library never exercises wrap-around), except where a
value can genuinely be negative (seek offsets, binary-search bounds), where
`Int` is used.  Byte streams are `List Nat` with each element a byte value;
Go strings are byte lists.  Fallible Go functions returning `(T, error)`
become `Except GoError T`; error values built with `fmt.Errorf` are modelled
by tagged constructors, with `%w`-wrapping (traversed by `errors.Is`)
distinguished from `%s`-formatting (which breaks the unwrap chain).
-/

namespace SeekerFs

/-! ## Byte-level helpers (little-endian integers, slices, in-place stores) -/

/-- `k` little-endian bytes of `n` (the encoding `encoding/binary` uses for
unsigned fields, one byte at a time, least significant first). -/
def leBytes : Nat → Nat → List Nat
  | 0, _ => []
  | k + 1, n => (n % 256) :: leBytes k (n / 256)

/-- Decode a little-endian byte list back to a natural number. -/
def leVal : List Nat → Nat
  | [] => 0
  | b :: rest => b + 256 * leVal rest

/-- Eight little-endian bytes, the width of every integer field of `File`. -/
def le64 (n : Nat) : List Nat := leBytes 8 n

/-- Truncate or zero-pad a byte list to exactly 8 bytes, the semantics of
`copy(dst[0:8], src)` into a zeroed `[8]byte` array. -/
def pad8 (l : List Nat) : List Nat :=
  (l.take 8) ++ List.replicate (8 - l.length) 0

/-- The `n`-byte slice of `l` starting at `off` (shorter if `l` ends first). -/
def sliceBytes (l : List Nat) (off n : Nat) : List Nat :=
  (l.drop off).take n

/-- Overwrite `l` starting at index `i` with `v`, clamped to `l`'s length:
the semantics of Go's `copy(l[i:i+len(v)], v)` (never grows `l`). -/
def storeAt (l : List Nat) (i : Nat) (v : List Nat) : List Nat :=
  l.take i ++ v.take (l.length - i) ++ l.drop (i + v.length)

@[simp] theorem leBytes_length (k n : Nat) : (leBytes k n).length = k := by
  induction k generalizing n with
  | zero => rfl
  | succ k ih => simp [leBytes, ih]

@[simp] theorem le64_length (n : Nat) : (le64 n).length = 8 := leBytes_length 8 n

@[simp] theorem pad8_length (l : List Nat) : (pad8 l).length = 8 := by
  simp [pad8]; omega

theorem storeAt_length (l : List Nat) (i : Nat) (v : List Nat) :
    (storeAt l i v).length = l.length := by
  simp [storeAt]
  omega

/-- When the write fits inside `l`, `storeAt` has a clean three-part form. -/
theorem storeAt_eq_of_le {l : List Nat} {i : Nat} {v : List Nat}
    (h : i + v.length ≤ l.length) :
    storeAt l i v = l.take i ++ v ++ l.drop (i + v.length) := by
  rw [storeAt, List.take_of_length_le (show v.length ≤ l.length - i by omega)]

/-- A store entirely past the end of the list is a no-op (Go `copy` copies
zero bytes). -/
theorem storeAt_of_ge {l : List Nat} {i : Nat} (v : List Nat)
    (h : l.length ≤ i) : storeAt l i v = l := by
  rw [storeAt, List.take_of_length_le h, Nat.sub_eq_zero_of_le h]
  simp [List.drop_eq_nil_of_le (le_trans h (Nat.le_add_right i v.length))]

theorem sliceBytes_getElem? (l : List Nat) (off n j : Nat) :
    (sliceBytes l off n)[j]? = if j < n then l[off + j]? else none := by
  simp only [sliceBytes]
  rw [List.getElem?_take]
  by_cases hj : j < n
  · simp [hj, List.getElem?_drop]
  · simp [hj]

theorem sliceBytes_length (l : List Nat) (off n : Nat) :
    (sliceBytes l off n).length = min n (l.length - off) := by
  simp [sliceBytes]

/-- Two slices agree when the underlying lists agree pointwise on the window. -/
theorem sliceBytes_congr {l l' : List Nat} {off n : Nat}
    (hagree : ∀ j, off ≤ j → j < off + n → l'[j]? = l[j]?) :
    sliceBytes l' off n = sliceBytes l off n := by
  apply List.ext_getElem?
  intro j
  rw [sliceBytes_getElem?, sliceBytes_getElem?]
  by_cases hj : j < n
  · simp only [hj, if_true]
    exact hagree (off + j) (by omega) (by omega)
  · simp [hj]

theorem sliceBytes_append_left (l m : List Nat) (off n : Nat)
    (h : off + n ≤ l.length) : sliceBytes (l ++ m) off n = sliceBytes l off n := by
  apply List.ext_getElem?
  intro j
  rw [sliceBytes_getElem?, sliceBytes_getElem?]
  by_cases hj : j < n
  · simp only [hj, if_true]
    rw [List.getElem?_append_left (by omega)]
  · simp [hj]

theorem sliceBytes_append_right (l m : List Nat) (n : Nat) :
    sliceBytes (l ++ m) l.length n = sliceBytes m 0 n := by
  apply List.ext_getElem?
  intro j
  rw [sliceBytes_getElem?, sliceBytes_getElem?]
  by_cases hj : j < n
  · simp only [hj, if_true]
    rw [List.getElem?_append_right (by omega)]
    congr 1; omega
  · simp [hj]

theorem storeAt_getElem?_outside (l : List Nat) (i : Nat) (v : List Nat) (j : Nat)
    (h : j < i ∨ i + v.length ≤ j) : (storeAt l i v)[j]? = l[j]? := by
  by_cases hi : l.length ≤ i
  · rw [storeAt_of_ge v hi]
  · rcases h with hj | hj
    · rw [storeAt, List.getElem?_append_left, List.getElem?_append_left,
        List.getElem?_take]
      · simp [hj]
      · simp only [List.length_take]; omega
      · simp only [List.length_append, List.length_take]; omega
    · rw [storeAt, List.getElem?_append_right (by
        simp only [List.length_append, List.length_take]; omega)]
      rw [List.getElem?_drop]
      simp only [List.length_append, List.length_take]
      by_cases hiv : i + v.length ≤ l.length
      · congr 1
        omega
      · rw [List.getElem?_eq_none (by omega), List.getElem?_eq_none (by omega)]

theorem sliceBytes_storeAt_same (l : List Nat) (i : Nat) (v : List Nat)
    (h : i + v.length ≤ l.length) :
    sliceBytes (storeAt l i v) i v.length = v := by
  apply List.ext_getElem?
  intro j
  rw [sliceBytes_getElem?]
  by_cases hj : j < v.length
  · simp only [hj, if_true]
    rw [storeAt_eq_of_le h, List.append_assoc,
      List.getElem?_append_right (by simp)]
    have hidx : i + j - (List.take i l).length = j := by
      simp only [List.length_take]
      rw [min_eq_left (show i ≤ l.length by omega)]
      omega
    rw [hidx, List.getElem?_append_left hj]
  · simp only [hj, if_false]
    exact (List.getElem?_eq_none (by omega)).symm

/-! ## Errors

Go errors in this library are `fmt.Errorf` values.  Each construction site
gets a tag.  `wrap` models `fmt.Errorf("...: %w", e)` (traversed by
`errors.Is`); `wrapOpaque` models `fmt.Errorf("...: %s", e)`, which keeps a
message but breaks the unwrap chain; `pathError` models `&fs.PathError{Op,
Path, Err}` (whose `Unwrap` exposes `Err`); `notExist` is `fs.ErrNotExist`,
`invalidPath` is `fs.ErrInvalid`, and `eofErr` is `io.EOF`. -/

inductive ErrTag where
  | readFailed | seekFailed
  | readTopFailed | invalidTopEntry | topNotDir
  | badMagic | tooManyDirEntries
  | notDirectory | invalidEntryIndex | entryIndexRange | entryReadFailed
  | longNameFailed | readEntryIdx | compareEntry | resolveComponent
  | isDirectory | readDataFailed | cantSeekDir | invalidWhence | invalidNewOffset
  | entryLimit | depthLimit | outputLimit
  | reserveHeaderFailed | nameWriteFailed | contentWriteFailed | headerWriteFailed
  | dirNameWriteFailed | readDirFailed | emptyDirHeaderFailed | dirHeaderFailed
  | enqueueChildFailed | writeFileFailed | writeDirFailed
  | rootOpenFailed | rootEnqueueFailed | outputWriteFailed
  | fuelExhausted
  deriving DecidableEq, Repr

inductive GoError where
  | notExist
  | eofErr
  | invalidPath
  | errorf (tag : ErrTag)
  | wrap (tag : ErrTag) (inner : GoError)
  | wrapOpaque (tag : ErrTag)
  | pathError (op : String) (path : List Nat) (inner : GoError)
  deriving DecidableEq, Repr

/-- `errors.Is(e, fs.ErrNotExist)`: walk the `%w`/`PathError` unwrap chain. -/
def GoError.containsNotExist : GoError → Bool
  | .notExist => true
  | .wrap _ inner => inner.containsNotExist
  | .pathError _ _ inner => inner.containsNotExist
  | _ => false

/-- Whether the error chain contains an error created at the given site. -/
def GoError.containsTag : GoError → ErrTag → Bool
  | .errorf t, tag => t = tag
  | .wrapOpaque t, tag => t = tag
  | .wrap t inner, tag => t = tag || inner.containsTag tag
  | .pathError _ _ inner, tag => inner.containsTag tag
  | _, _ => false

/-- `isOk` for a fallible result. -/
def resultOk : Except GoError α → Bool
  | .ok _ => true
  | .error _ => false

/-- Whether a fallible result failed with the given error site in its chain. -/
def resultHasTag (r : Except GoError α) (tag : ErrTag) : Bool :=
  match r with
  | .ok _ => false
  | .error e => e.containsTag tag

/-- Whether a fallible result failed with `fs.ErrNotExist` in its chain. -/
def resultHasNotExist (r : Except GoError α) : Bool :=
  match r with
  | .ok _ => false
  | .error e => e.containsNotExist

instance [DecidableEq ε] [DecidableEq α] : DecidableEq (Except ε α)
  | .ok a, .ok b =>
    if h : a = b then .isTrue (by rw [h]) else .isFalse (by simp [h])
  | .ok _, .error _ => .isFalse (by simp)
  | .error _, .ok _ => .isFalse (by simp)
  | .error e, .error e' =>
    if h : e = e' then .isTrue (by rw [h]) else .isFalse (by simp [h])

/-! ## The on-stream header record (`File` in `seeker_fs.go`)

The Go struct has eight fields, each 8 bytes when encoded with
`binary.Write`/`binary.Read` in little-endian order, so
`binary.Size(File{})` is 64. -/

/-- `fileStructSize` in the Go source (computed by `binary.Size(File{})`). -/
def fileStructSize : Nat := 64

/-- The `File` struct of `seeker_fs.go`: a header record.  `magic` and
`shortName` are 8-byte arrays (byte lists of length 8 for any header the
library builds or decodes); the remaining fields are `uint64`. -/
structure File where
  magic : List Nat
  mode : Nat
  shortName : List Nat
  nameOffset : Nat
  nameSize : Nat
  dataOffset : Nat
  size : Nat
  modTime : Nat
  deriving DecidableEq, Repr

/-- The byte literal `"1337FILE"`. -/
def magicBytes : List Nat := [49, 51, 51, 55, 70, 73, 76, 69]

/-- The zero value `File{}` (what a reserved header slot is filled with). -/
def emptyFile : File :=
  { magic := List.replicate 8 0, mode := 0, shortName := List.replicate 8 0,
    nameOffset := 0, nameSize := 0, dataOffset := 0, size := 0, modTime := 0 }

/-- Little-endian encoding of a header, field by field in struct order:
Magic, Mode, ShortName, NameOffset, NameSize, DataOffset, Size, ModTime. -/
def encodeFile (f : File) : List Nat :=
  pad8 f.magic ++ le64 f.mode ++ pad8 f.shortName ++ le64 f.nameOffset ++
    le64 f.nameSize ++ le64 f.dataOffset ++ le64 f.size ++ le64 f.modTime

/-- `binary.Read` of one `File` from 64 bytes. -/
def decodeFile (bs : List Nat) : File :=
  { magic := sliceBytes bs 0 8
    mode := leVal (sliceBytes bs 8 8)
    shortName := sliceBytes bs 16 8
    nameOffset := leVal (sliceBytes bs 24 8)
    nameSize := leVal (sliceBytes bs 32 8)
    dataOffset := leVal (sliceBytes bs 40 8)
    size := leVal (sliceBytes bs 48 8)
    modTime := leVal (sliceBytes bs 56 8) }

@[simp] theorem encodeFile_length (f : File) : (encodeFile f).length = 64 := by
  simp [encodeFile]

theorem encodeFile_emptyFile : encodeFile emptyFile = List.replicate 64 0 := by
  decide

/-- `File.IsDir`: `fs.FileMode(f.Mode).IsDir()`.  `fs.FileMode` is a
`uint32` whose `ModeDir` bit is bit 31, so the conversion from the `uint64`
field keeps exactly bit 31 relevant. -/
def File.IsDir (f : File) : Bool := f.mode.testBit 31

/-- `File.GetShortName`: the short name, with `"..."` (bytes 46,46,46)
appended when the name was abbreviated. -/
def File.GetShortName (f : File) : List Nat :=
  if f.nameSize ≤ 8 then f.shortName.take f.nameSize
  else f.shortName ++ [46, 46, 46]

/-- `File.Validate`: magic must be `"1337FILE"`, and a directory may not
claim more than `0x7fffffff` entries. -/
def File.Validate (f : File) : Except GoError Unit :=
  if f.magic ≠ magicBytes then .error (.errorf .badMagic)
  else if f.IsDir ∧ f.size > 0x7fffffff then .error (.errorf .tooManyDirEntries)
  else .ok ()

/-! ## Byte-lexicographic ordering on names

`strings.Compare` and Go's `<` on `string` compare byte-wise
lexicographically.  `listCompare` returns `-1`, `0` or `1` like
`strings.Compare`. -/

def listCompare : List Nat → List Nat → Int
  | [], [] => 0
  | [], _ :: _ => -1
  | _ :: _, [] => 1
  | a :: as, b :: bs =>
    if a < b then -1 else if b < a then 1 else listCompare as bs

/-- Go `a < b` on strings (byte-lexicographic strict order). -/
def byteLt (a b : List Nat) : Bool := listCompare a b < 0

/-- Go `a <= b` on strings. -/
def byteLe (a b : List Nat) : Bool := listCompare a b ≤ 0

theorem listCompare_eq_zero_iff : ∀ a b : List Nat, listCompare a b = 0 ↔ a = b := by
  intro a
  induction a with
  | nil => intro b; cases b <;> simp [listCompare]
  | cons x as ih =>
    intro b
    cases b with
    | nil => simp [listCompare]
    | cons y bs =>
      by_cases hxy : x < y
      · simp [listCompare, hxy]
        omega
      · by_cases hyx : y < x
        · simp [listCompare, hxy, hyx]
          omega
        · have hxyeq : x = y := by omega
          simp [listCompare, hxy, hyx, hxyeq, ih]

theorem listCompare_swap : ∀ a b : List Nat, listCompare a b = -listCompare b a := by
  intro a
  induction a with
  | nil => intro b; cases b <;> simp [listCompare]
  | cons x as ih =>
    intro b
    cases b with
    | nil => simp [listCompare]
    | cons y bs =>
      by_cases hxy : x < y
      · have : ¬(y < x) := by omega
        simp [listCompare, hxy, this]
      · by_cases hyx : y < x
        · simp [listCompare, hxy, hyx]
        · simp [listCompare, hxy, hyx, ih]

theorem byteLt_trans {a b c : List Nat} (h1 : byteLt a b = true)
    (h2 : byteLt b c = true) : byteLt a c = true := by
  simp only [byteLt, decide_eq_true_eq] at *
  induction a generalizing b c with
  | nil =>
    cases b with
    | nil => simp [listCompare] at h1
    | cons y bs => cases c with
      | nil => simp [listCompare] at h2
      | cons z cs => simp [listCompare]
  | cons x as ih =>
    cases b with
    | nil => simp [listCompare] at h1
    | cons y bs =>
      cases c with
      | nil => simp [listCompare] at h2
      | cons z cs =>
        simp only [listCompare] at h1 h2 ⊢
        by_cases hxy : x < y
        · by_cases hyz : y < z
          · have hxz : x < z := by omega
            simp [hxz]
          · simp only [if_neg hyz] at h2
            by_cases hzy : z < y
            · simp [hzy] at h2
            · have hyzeq : y = z := by omega
              subst hyzeq
              simp [hxy]
        · simp only [if_neg hxy] at h1
          by_cases hyx : y < x
          · simp [hyx] at h1
          · simp only [if_neg hyx] at h1
            have hxyeq : x = y := by omega
            subst hxyeq
            by_cases hxz : x < z
            · simp [hxz]
            · simp only [if_neg hxz] at h2 ⊢
              by_cases hzx : z < x
              · simp [hzx] at h2
              · simp only [if_neg hzx] at h2 ⊢
                exact ih h1 h2

theorem byteLe_total (a b : List Nat) : byteLe a b = true ∨ byteLe b a = true := by
  simp only [byteLe, decide_eq_true_eq]
  rw [listCompare_swap a b]
  omega

theorem byteLe_trans {a b c : List Nat} (h1 : byteLe a b = true)
    (h2 : byteLe b c = true) : byteLe a c = true := by
  simp only [byteLe, decide_eq_true_eq] at *
  rcases lt_or_eq_of_le h1 with h1' | h1'
  · rcases lt_or_eq_of_le h2 with h2' | h2'
    · have := byteLt_trans (a := a) (b := b) (c := c) (by simp [byteLt]; omega)
        (by simp [byteLt]; omega)
      simp only [byteLt, decide_eq_true_eq] at this
      omega
    · have : b = c := (listCompare_eq_zero_iff b c).mp (by omega)
      subst this
      omega
  · have : a = b := (listCompare_eq_zero_iff a b).mp (by omega)
    subst this
    omega

theorem byteLe_of_ne_of_le {a b : List Nat} (hne : a ≠ b)
    (h : byteLe a b = true) : byteLt a b = true := by
  simp only [byteLe, byteLt, decide_eq_true_eq] at *
  rcases lt_or_eq_of_le h with h' | h'
  · omega
  · exact absurd ((listCompare_eq_zero_iff a b).mp (by omega)) hne

/-! ## The source filesystem

`CreateSeekerFS` consumes an abstract `fs.FS`.  We model it as an in-memory
tree.  Each node carries the values its `fs.FileInfo` reports: base name
(`info.Name()`, a byte string), mode word (`info.Mode()`, a `uint32`
value whose bit 31 is the directory bit), modification time
(`info.ModTime().Unix()`), and — for regular files — content bytes.
Directory enumeration (`ReadDir(-1)`) yields the children; opening a child
by path yields the child node; none of these operations fail for an
in-memory tree. -/

inductive FSTree where
  | file (name : List Nat) (mode modTime : Nat) (content : List Nat)
  | dir (name : List Nat) (mode modTime : Nat) (children : List FSTree)
  deriving Repr

/-- The node's base name (`info.Name()`). -/
def nameOf : FSTree → List Nat
  | .file n _ _ _ => n
  | .dir n _ _ _ => n

mutual
/-- Number of nodes of the tree: every node is enqueued exactly once by the
writer, so this bounds the number of iterations of its work loop. -/
def treeSize : FSTree → Nat
  | .file _ _ _ _ => 1
  | .dir _ _ _ cs => 1 + treeSizeList cs
def treeSizeList : List FSTree → Nat
  | [] => 0
  | c :: rest => treeSize c + treeSizeList rest
end

theorem treeSize_pos (t : FSTree) : 1 ≤ treeSize t := by
  cases t <;> simp [treeSize]

theorem treeSizeList_eq_sum (cs : List FSTree) :
    treeSizeList cs = (cs.map treeSize).sum := by
  induction cs with
  | nil => rfl
  | cons c rest ih => simp [treeSizeList, ih]

mutual
/-- The source-FS contract of §6 of the spec: base names are unique within
every directory of the source tree. -/
def uniqueSiblingNames : FSTree → Bool
  | .file _ _ _ _ => true
  | .dir _ _ _ cs => ((cs.map nameOf).Nodup : Bool) && uniqueSiblingNamesList cs
def uniqueSiblingNamesList : List FSTree → Bool
  | [] => true
  | c :: rest => uniqueSiblingNames c && uniqueSiblingNamesList rest
end

/-- `sort.Sort(dirEntrySlice(entries))` with `Less(a, b) = Name(a) < Name(b)`.
Go's sort is an unspecified unstable sort; insertion sort by `byteLe` on
names produces the same list whenever sibling names are distinct (the
source-FS contract), because then the sorted permutation is unique. -/
def sortByName (l : List FSTree) : List FSTree :=
  List.insertionSort (fun a b => byteLe (nameOf a) (nameOf b) = true) l

instance : IsTotal FSTree (fun a b => byteLe (nameOf a) (nameOf b) = true) :=
  ⟨fun a b => byteLe_total (nameOf a) (nameOf b)⟩

instance : IsTrans FSTree (fun a b => byteLe (nameOf a) (nameOf b) = true) :=
  ⟨fun _ _ _ h1 h2 => byteLe_trans h1 h2⟩

theorem sortByName_perm (l : List FSTree) : (sortByName l).Perm l :=
  List.perm_insertionSort _ l

theorem sortByName_sorted (l : List FSTree) :
    List.Sorted (fun a b => byteLe (nameOf a) (nameOf b) = true) (sortByName l) :=
  List.sorted_insertionSort _ l

theorem sortByName_sum_treeSize (l : List FSTree) :
    ((sortByName l).map treeSize).sum = (l.map treeSize).sum :=
  ((sortByName_perm l).map treeSize).sum_eq

theorem mem_sortByName {c : FSTree} {l : List FSTree} :
    c ∈ sortByName l ↔ c ∈ l := (sortByName_perm l).mem_iff

/-- With pairwise-distinct names, the `byteLe`-sorted order is pairwise
strictly ascending: the invariant the reader's binary search relies on. -/
theorem sortByName_pairwise_lt {l : List FSTree}
    (hnd : (l.map nameOf).Nodup) :
    List.Pairwise (fun a b => byteLt (nameOf a) (nameOf b) = true) (sortByName l) := by
  have hsorted := sortByName_sorted l
  have hnd' : ((sortByName l).map nameOf).Nodup :=
    ((sortByName_perm l).map nameOf).nodup_iff.mpr hnd
  have hndpw : List.Pairwise (fun a b => nameOf a ≠ nameOf b) (sortByName l) :=
    List.pairwise_map.mp hnd'
  exact (hsorted.and hndpw).imp (fun h => byteLe_of_ne_of_le h.2 h.1)

/-! ## The writer (`create_seeker_fs.go`)

The output sink is an `io.WriteSeeker`.  We model a conforming sink
(e.g. `os.File`): a byte sequence plus a current offset, where `Write`
stores bytes at the offset — zero-filling any gap past the end, growing the
sequence as needed — and advances the offset, and `Seek` moves the offset.
(`io.CopyN` then appends a file's content regardless of chunking.) -/

structure OutStream where
  data : List Nat
  offset : Nat
  deriving Repr

/-- Conforming `Write`: store at the current offset and advance it. -/
def OutStream.write (o : OutStream) (bs : List Nat) : OutStream :=
  let grown := if o.data.length < o.offset + bs.length then
      o.data ++ List.replicate (o.offset + bs.length - o.data.length) 0
    else o.data
  { data := storeAt grown o.offset bs, offset := o.offset + bs.length }

/-- `Seek(0, io.SeekEnd)`: move to the end, reporting the new offset. -/
def OutStream.seekEnd (o : OutStream) : OutStream × Nat :=
  ({ o with offset := o.data.length }, o.data.length)

/-- `Seek(off, io.SeekStart)` for a non-negative absolute offset. -/
def OutStream.seekTo (o : OutStream) (off : Nat) : OutStream :=
  { o with offset := off }

/-- `CreateFSSettings` (the `StatusLog` field only affects logging and is
omitted).  Each numeric cap is `int64`; a value `≤ 0` means unlimited. -/
structure CreateFSSettings where
  maxDepth : Int
  maxOutputSize : Int
  maxTotalEntries : Int
  deriving Repr

/-- The zero value, used when the caller passes `nil` settings. -/
def noLimits : CreateFSSettings :=
  { maxDepth := 0, maxOutputSize := 0, maxTotalEntries := 0 }

/-- `outputQueue.checkWriteLimit`. -/
def checkWriteLimit (s : CreateFSSettings) (newEnd : Nat) : Except GoError Unit :=
  if s.maxOutputSize ≤ 0 then .ok ()
  else if s.maxOutputSize < (newEnd : Int) then .error (.errorf .outputLimit)
  else .ok ()

/-- Attach a `%w` wrap to the error of a fallible result. -/
def wrapTag (r : Except GoError α) (tag : ErrTag) : Except GoError α :=
  match r with
  | .ok a => .ok a
  | .error e => .error (.wrap tag e)

/-- `outputQueue.writeDataAndGetLocation`: seek to the end, check the size
cap against the write's end, write, and return the offset written at. -/
def writeDataAndGetLocation (s : CreateFSSettings) (o : OutStream)
    (bs : List Nat) : Except GoError (OutStream × Nat) :=
  let (o, loc) := o.seekEnd
  match checkWriteLimit s (loc + bs.length) with
  | .error e => .error e
  | .ok _ => .ok (o.write bs, loc)

/-- `outputQueue.writeDataAtLocation`: seek to `off`, check the size cap,
write. -/
def writeDataAtLocation (s : CreateFSSettings) (o : OutStream)
    (bs : List Nat) (off : Nat) : Except GoError OutStream :=
  let o := o.seekTo off
  match checkWriteLimit s (off + bs.length) with
  | .error e => .error e
  | .ok _ => .ok (o.write bs)

/-- Mutable state of the `outputQueue` apart from the work stack. -/
structure WriterState where
  out : OutStream
  totalFilesWritten : Nat
  deriving Repr

/-- `fileToProcess`: a node whose header slot is reserved and whose content
is still to be written.  (The `path` string only feeds error messages and
`inputFS.Open`; carrying the subtree replaces both for an in-memory FS.) -/
structure QueueItem where
  tree : FSTree
  fileHeaderOffset : Nat
  depth : Nat
  deriving Repr

/-- `getSeekerFSHeader`: header fields from `fs.FileInfo`, with
`NameOffset`, `DataOffset` and `Size` left zero. -/
def getSeekerFSHeader (name : List Nat) (mode modTime : Nat) : File :=
  { magic := magicBytes, mode := mode, shortName := pad8 name,
    nameOffset := 0, nameSize := name.length, dataOffset := 0, size := 0,
    modTime := modTime }

/-- `outputQueue.reserveHeaderAndEnqueue`: entry-count cap, then depth cap,
then write an all-zero header at the end of the stream and produce the
queue entry. -/
def reserveHeaderAndEnqueue (s : CreateFSSettings) (st : WriterState)
    (t : FSTree) (depth : Nat) : Except GoError (WriterState × QueueItem) :=
  if 0 < s.maxTotalEntries ∧ s.maxTotalEntries ≤ (st.totalFilesWritten : Int) then
    .error (.errorf .entryLimit)
  else
    let st := { st with totalFilesWritten := st.totalFilesWritten + 1 }
    if 0 < s.maxDepth ∧ s.maxDepth < (depth : Int) then
      .error (.errorf .depthLimit)
    else
      match wrapTag (writeDataAndGetLocation s st.out (encodeFile emptyFile))
          .reserveHeaderFailed with
      | .error e => .error e
      | .ok (o, loc) =>
        .ok ({ st with out := o },
             { tree := t, fileHeaderOffset := loc, depth := depth })

/-- `outputQueue.writeFileContent`: optionally append the long name, append
the content (via `io.CopyN`), then back-patch the header at its slot. -/
def writeFileContent (s : CreateFSSettings) (st : WriterState)
    (name : List Nat) (mode modTime : Nat) (content : List Nat)
    (slot : Nat) : Except GoError WriterState :=
  match (if 8 < name.length then
      wrapTag (writeDataAndGetLocation s st.out name) .nameWriteFailed
    else .ok (st.out, 0) : Except GoError (OutStream × Nat)) with
  | .error e => .error e
  | .ok (o, nameOffset) =>
    match (if 0 < content.length then
        let (o, d) := o.seekEnd
        match checkWriteLimit s (d + content.length) with
        | .error e => .error e
        | .ok _ => .ok (o.write content, d)
      else .ok (o, 0) : Except GoError (OutStream × Nat)) with
    | .error e => .error e
    | .ok (o, dataOffset) =>
      let header := { getSeekerFSHeader name mode modTime with
        nameOffset := nameOffset, size := content.length,
        dataOffset := dataOffset }
      match wrapTag (writeDataAtLocation s o (encodeFile header) slot)
          .headerWriteFailed with
      | .error e => .error e
      | .ok o => .ok { st with out := o }

/-- The `for` loop in `writeDirContent`: open each (sorted) child and
reserve its header slot, collecting the queue entries in order. -/
def reserveChildren (s : CreateFSSettings) :
    WriterState → List FSTree → Nat → Except GoError (WriterState × List QueueItem)
  | st, [], _ => .ok (st, [])
  | st, c :: rest, depth =>
    match wrapTag (reserveHeaderAndEnqueue s st c depth) .enqueueChildFailed with
    | .error e => .error e
    | .ok (st', item) =>
      match reserveChildren s st' rest depth with
      | .error e => .error e
      | .ok (st'', items) => .ok (st'', item :: items)

/-- `outputQueue.writeDirContent`: optionally append the long name; if the
directory is empty back-patch a `Size = 0` header; otherwise record the
current end as `DataOffset`, reserve one contiguous header slot per child in
sorted name order, and back-patch the directory header. -/
def writeDirContent (s : CreateFSSettings) (st : WriterState)
    (name : List Nat) (mode modTime : Nat) (cs : List FSTree)
    (slot : Nat) (depth : Nat) :
    Except GoError (WriterState × List QueueItem) :=
  match (if 8 < name.length then
      wrapTag (writeDataAndGetLocation s st.out name) .dirNameWriteFailed
    else .ok (st.out, 0) : Except GoError (OutStream × Nat)) with
  | .error e => .error e
  | .ok (o, nameOffset) =>
    if cs.isEmpty then
      let header := { getSeekerFSHeader name mode modTime with
        nameOffset := nameOffset }
      match wrapTag (writeDataAtLocation s o (encodeFile header) slot)
          .emptyDirHeaderFailed with
      | .error e => .error e
      | .ok o => .ok ({ st with out := o }, [])
    else
      let (o, dataOffset) := o.seekEnd
      match reserveChildren s { st with out := o } (sortByName cs) (depth + 1) with
      | .error e => .error e
      | .ok (st', items) =>
        let header := { getSeekerFSHeader name mode modTime with
          nameOffset := nameOffset, dataOffset := dataOffset,
          size := cs.length }
        match wrapTag (writeDataAtLocation s st'.out (encodeFile header) slot)
            .dirHeaderFailed with
        | .error e => .error e
        | .ok o => .ok ({ st' with out := o }, items)

/-- The depth-first loop of `CreateSeekerFS` (pop the most recent entry,
process it, push directory children).  The Go slice-backed stack pushes at
the slice's end; here the list head is the stack top, so the children —
pushed in sorted order — are prepended reversed.  `fuel` is a termination
bound; the caller passes at least one more than the node count of the whole
tree, which the loop never exhausts (each iteration pops one node and
pushes only its children). -/
def processLoop (s : CreateFSSettings) :
    Nat → WriterState → List QueueItem → Except GoError WriterState
  | 0, _, _ => .error (.errorf .fuelExhausted)
  | _ + 1, st, [] => .ok st
  | fuel + 1, st, item :: rest =>
    match item.tree with
    | .file name mode modTime content =>
      match wrapTag (writeFileContent s st name mode modTime content
          item.fileHeaderOffset) .writeFileFailed with
      | .error e => .error e
      | .ok st' => processLoop s fuel st' rest
    | .dir name mode modTime cs =>
      match wrapTag (writeDirContent s st name mode modTime cs
          item.fileHeaderOffset item.depth) .writeDirFailed with
      | .error e => .error e
      | .ok (st', items) => processLoop s fuel st' (items.reverse ++ rest)

/-- `CreateSeekerFS`: open the root, reserve its header slot at offset 0,
then run the work loop; the packed stream is the sink's final content. -/
def CreateSeekerFS (t : FSTree) (s : CreateFSSettings) :
    Except GoError (List Nat) :=
  let st0 : WriterState := { out := { data := [], offset := 0 }, totalFilesWritten := 0 }
  match wrapTag (reserveHeaderAndEnqueue s st0 t 0) .rootEnqueueFailed with
  | .error e => .error e
  | .ok (st1, rootItem) =>
    match wrapTag (processLoop s (treeSize t + 1) st1 [rootItem])
        .outputWriteFailed with
    | .error e => .error e
    | .ok fin => .ok fin.out.data

/-! ## The reader (`seeker_fs.go`)

A `SeekerFS` owns the packed byte stream (the `io.ReadSeeker`'s content)
and the decoded root header.  The mutex field only serializes concurrent
access and has no sequential semantics; the locking discipline is modelled
separately as an event trace (see `StreamEvent` below). -/

structure SeekerFS where
  stream : List Nat
  topFile : File
  deriving Repr

/-- `SeekerFS.readAtOffset`: seek to an absolute position and `io.ReadFull`
`n` bytes.  On a read-seeker the absolute seek itself succeeds; the read
fails (with `io.EOF`/`io.ErrUnexpectedEOF`, reported via `%s`) unless `n`
bytes are available at `loc`. -/
def readAtOffset (p : SeekerFS) (loc n : Nat) : Except GoError (List Nat) :=
  if loc + n ≤ p.stream.length then .ok (sliceBytes p.stream loc n)
  else .error (.wrapOpaque .readFailed)

/-- `NewSeekerFS`: `binary.Read` one header from the start of the source,
validate it, and require a directory.  (The Go function reads at the
source's current position; the stream here is the byte sequence from that
position.) -/
def NewSeekerFS (bytes : List Nat) : Except GoError SeekerFS :=
  if bytes.length < 64 then .error (.wrapOpaque .readTopFailed)
  else
    let topFile := decodeFile (bytes.take 64)
    match topFile.Validate with
    | .error _ => .error (.wrapOpaque .invalidTopEntry)
    | .ok _ =>
      if ¬topFile.IsDir then .error (.errorf .topNotDir)
      else .ok { stream := bytes, topFile := topFile }

/-- `LoadSeekerFS`, the package's public loading entry point (the README's
name for constructing a reader over an `io.ReadSeeker`). -/
def LoadSeekerFS (bytes : List Nat) : Except GoError SeekerFS :=
  NewSeekerFS bytes

/-- `getFileName`: short names are served from the header; longer names are
read out-of-line at `NameOffset` under the lock. -/
def getFileName (f : File) (p : SeekerFS) : Except GoError (List Nat) :=
  if f.nameSize ≤ 8 then .ok (f.shortName.take f.nameSize)
  else readAtOffset p f.nameOffset f.nameSize

/-- `compareFileName`: `strings.Compare(a, b)` with `a` the entry's name and
`b` the searched component, short-circuited through `ShortName`
(`f.ShortName[0:8]` is `shortName.take 8`).  The out-of-line name is
fetched only in the final branch. -/
def compareFileName (f : File) (p : SeekerFS) (toCheck : List Nat) :
    Except GoError Int :=
  if toCheck.length ≤ 8 ∧ f.nameSize ≤ 8 then
    .ok (listCompare f.GetShortName toCheck)
  else if toCheck.length < 8 then
    .ok (listCompare (f.shortName.take 8) toCheck)
  else if f.nameSize < 8 then
    .ok (listCompare f.GetShortName toCheck)
  else
    let shortResult := listCompare (f.shortName.take 8) toCheck
    if shortResult ≠ 0 then .ok shortResult
    else
      match getFileName f p with
      | .error e => .error (.wrap .longNameFailed e)
      | .ok longName => .ok (listCompare longName toCheck)

/-- `getDirEntry`: bounds-check an entry index of directory `f`, then read
and decode the header at `DataOffset + n*fileStructSize` under the lock.
(The seek and read failures carry distinct messages in the source; both are
`%s`-formatted, so one opaque tag stands for either.) -/
def getDirEntry (f : File) (p : SeekerFS) (n : Int) : Except GoError File :=
  if ¬f.IsDir then .error (.errorf .notDirectory)
  else if n < 0 then .error (.errorf .invalidEntryIndex)
  else if (f.size : Int) ≤ n then .error (.errorf .entryIndexRange)
  else
    match readAtOffset p (f.dataOffset + n.toNat * fileStructSize) 64 with
    | .error _ => .error (.wrapOpaque .entryReadFailed)
    | .ok bs => .ok (decodeFile bs)

/-- The `for beginIndex <= endIndex` loop of `getNamedDirEntry`.  Go's
`(beginIndex + endIndex) >> 1` is taken on a non-negative sum (the loop is
entered only with `0 ≤ beginIndex ≤ endIndex`), hence `.toNat / 2`.  `fuel`
is a termination bound; the interval shrinks every iteration, so the
caller's `Size + 2` is never exhausted. -/
def getNamedDirEntryLoop (f : File) (p : SeekerFS) (name : List Nat) :
    Nat → Int → Int → Except GoError File
  | 0, _, _ => .error (.errorf .fuelExhausted)
  | fuel + 1, beginIndex, endIndex =>
    if beginIndex ≤ endIndex then
      let currentIndex : Int := ((beginIndex + endIndex).toNat / 2 : Nat)
      match getDirEntry f p currentIndex with
      | .error e => .error (.wrap .readEntryIdx e)
      | .ok currentEntry =>
        match compareFileName currentEntry p name with
        | .error e => .error (.wrap .compareEntry e)
        | .ok compareResult =>
          if compareResult = 0 then .ok currentEntry
          else if compareResult < 0 then
            getNamedDirEntryLoop f p name fuel beginIndex (currentIndex - 1)
          else
            getNamedDirEntryLoop f p name fuel (currentIndex + 1) endIndex
    else .error .notExist

/-- `getNamedDirEntry`: binary search for a base name among the directory's
entries; `fs.ErrNotExist` for an empty directory or an exhausted interval. -/
def getNamedDirEntry (f : File) (p : SeekerFS) (name : List Nat) :
    Except GoError File :=
  if ¬f.IsDir then .error (.errorf .notDirectory)
  else if f.size = 0 then .error .notExist
  else getNamedDirEntryLoop f p name (f.size + 2) 0 (f.size : Int)

/-- `strings.Split(path, "/")` on byte strings: split at every byte 47,
preserving empty components. -/
def splitOnSlash : List Nat → List (List Nat)
  | [] => [[]]
  | b :: rest =>
    if b = 47 then [] :: splitOnSlash rest
    else
      match splitOnSlash rest with
      | [] => [[b]]
      | comp :: comps => (b :: comp) :: comps

/-- `fs.ValidPath`: `"."` alone is valid; otherwise every slash-separated
element must be non-empty and neither `"."` nor `".."`.  (The
`utf8.ValidString` pre-check is omitted: every name considered in this
development is ASCII, where it always passes.) -/
def ValidPath (path : List Nat) : Bool :=
  if path = [46] then true
  else (splitOnSlash path).all fun c => ¬c.isEmpty && c ≠ [46] && c ≠ [46, 46]

/-- The component-resolution loop of `resolveFilePath`. -/
def resolveLoop (p : SeekerFS) : File → List (List Nat) → Except GoError File
  | current, [] => .ok current
  | current, name :: rest =>
    match getNamedDirEntry current p name with
    | .error e => .error (.wrap .resolveComponent e)
    | .ok next => resolveLoop p next rest

/-- `resolveFilePath`: validate, special-case `"."`, then resolve each
component in turn. -/
def resolveFilePath (topDir : File) (p : SeekerFS) (path : List Nat) :
    Except GoError File :=
  if ¬ValidPath path then .error .invalidPath
  else if path = [46] then .ok topDir
  else resolveLoop p topDir (splitOnSlash path)

/-- `SeekerFS.Open`: resolve, wrapping any failure in `&fs.PathError{"open",
path, e}`.  The returned handle is the resolved header with a zero cursor;
`seekerFileRead`/`seekerFileSeek` below model the handle's methods. -/
def SeekerFS.Open (p : SeekerFS) (path : List Nat) : Except GoError File :=
  match resolveFilePath p.topFile p path with
  | .error e => .error (.pathError "open" path e)
  | .ok f => .ok f

/-- `SeekerFSFile.Read`: returns the bytes read (the filled prefix of the
caller's buffer of length `bufLen`) and the handle's updated `readOffset`
cursor. -/
def seekerFileRead (p : SeekerFS) (f : File) (readOffset : Nat)
    (bufLen : Nat) : Except GoError (List Nat) × Nat :=
  if f.IsDir then (.error (.errorf .isDirectory), readOffset)
  else if f.size ≤ readOffset then (.error .eofErr, readOffset)
  else
    let bytesToRead := bufLen
    let endOffset := readOffset + bytesToRead
    let bytesToRead := if f.size < endOffset then f.size - readOffset else bytesToRead
    match readAtOffset p (f.dataOffset + readOffset) bytesToRead with
    | .error _ => (.error (.wrapOpaque .readDataFailed), readOffset)
    | .ok bs => (.ok bs, readOffset + bytesToRead)

/-- `SeekerFSFile.Seek`: `whence` is 0 (`io.SeekStart`), 1
(`io.SeekCurrent`) or 2 (`io.SeekEnd`); anything else resets the cursor to 0
and errors, while a negative computed offset errors leaving the cursor
alone.  Returns the result and the updated cursor. -/
def seekerFileSeek (f : File) (readOffset : Nat) (offset : Int)
    (whence : Int) : Except GoError Int × Nat :=
  if f.IsDir then (.error (.errorf .cantSeekDir), readOffset)
  else
    match (if whence = 0 then some offset
      else if whence = 2 then some ((f.size : Int) + offset)
      else if whence = 1 then some ((readOffset : Int) + offset)
      else none) with
    | none => (.error (.errorf .invalidWhence), 0)
    | some newOffset =>
      if newOffset < 0 then (.error (.errorf .invalidNewOffset), readOffset)
      else (.ok newOffset, newOffset.toNat)

/-! ## The in-memory `SeekableBuffer` (`seekable_buffer.go`)

The library's own `io.Reader`/`io.Writer`/`io.Seeker` over a growable byte
slice.  `Offset` is an `int64` that is non-negative in every reachable
state (`NewSeekableBuffer` starts at 0, `Seek` rejects negative results,
`Read`/`Write` never decrease it), so it is modelled as `Nat`. -/

structure SeekableBuffer where
  data : List Nat
  offset : Nat
  deriving Repr

def NewSeekableBuffer : SeekableBuffer := { data := [], offset := 0 }

/-- `SeekableBuffer.expandToSize`.  The source panics when `size` is below
the current length; no caller reaches that branch (`Write` and `Seek` call
it only when `size` exceeds the length), so it is a no-op here.  The
capacity bookkeeping (doubling capped at 1 GiB of overshoot) affects
allocation only; the observable content is the old data zero-padded. -/
def SeekableBuffer.expandToSize (b : SeekableBuffer) (size : Nat) : SeekableBuffer :=
  if size < b.data.length then b
  else { b with data := b.data ++ List.replicate (size - b.data.length) 0 }

/-- `SeekableBuffer.Write`: expand if `Offset + len(data)` overruns, copy the
bytes at `Offset`, return `(len(data), nil)`.  `Offset` is not updated. -/
def SeekableBuffer.write (b : SeekableBuffer) (bs : List Nat) :
    SeekableBuffer × Nat × Option GoError :=
  let start := b.offset
  let limit := start + bs.length
  let b := if b.data.length < limit then b.expandToSize limit else b
  ({ b with data := storeAt b.data start bs }, bs.length, none)

/-- `SeekableBuffer.Seek`: compute the target from `whence` (0 start, 1
current, 2 end), reject a negative result without moving, expand the buffer
when seeking past its end. -/
def SeekableBuffer.seek (b : SeekableBuffer) (offset : Int) (whence : Int) :
    SeekableBuffer × Except GoError Int :=
  match (if whence = 0 then some (0 : Int)
    else if whence = 2 then some (b.data.length : Int)
    else if whence = 1 then some (b.offset : Int)
    else none) with
  | none => (b, .error (.errorf .invalidWhence))
  | some baseOffset =>
    let newOffset := baseOffset + offset
    if newOffset < 0 then (b, .error (.errorf .invalidNewOffset))
    else if newOffset ≤ (b.data.length : Int) then
      ({ b with offset := newOffset.toNat }, .ok newOffset)
    else
      ({ b.expandToSize newOffset.toNat with offset := newOffset.toNat }, .ok newOffset)

/-- `SeekableBuffer.Read` into a destination of length `dstLen`: `io.EOF` at
or past the end, otherwise a clamped copy that advances `Offset`. -/
def SeekableBuffer.read (b : SeekableBuffer) (dstLen : Nat) :
    SeekableBuffer × Except GoError (List Nat) :=
  if b.data.length ≤ b.offset then (b, .error .eofErr)
  else
    let limit := min (b.offset + dstLen) b.data.length
    ({ b with offset := limit }, .ok (sliceBytes b.data b.offset (limit - b.offset)))

/-! ## Lock-event traces

The reader's shared stream is guarded by `SeekerFS.lock`.  Which lock and
stream operations a code path performs, in order, is a sequential property
of the source; we record it as an event list.  `readAtOffset` performs a
seek then a read and is documented to assume the lock is held;
`getDirEntry`, `getFileName` and `ReadDir` bracket their accesses with
`acquireLock`/`releaseLock`. -/

inductive StreamEvent where
  | lockEv
  | unlockEv
  | seekEv (loc : Nat)
  | readEv (n : Nat)
  deriving DecidableEq, Repr

/-- Events of `SeekerFS.readAtOffset` (no locking of its own). -/
def readAtOffsetEvents (loc n : Nat) : List StreamEvent :=
  [.seekEv loc, .readEv n]

/-- Events of `SeekerFSFile.Read` (source lines 297–323): the payload
`seek + read` is issued through `f.p.readAtOffset` with no `acquireLock`
around it. -/
def seekerFileReadEvents (f : File) (readOffset bufLen : Nat) : List StreamEvent :=
  if f.IsDir then []
  else if f.size ≤ readOffset then []
  else
    let bytesToRead := bufLen
    let endOffset := readOffset + bytesToRead
    let bytesToRead := if f.size < endOffset then f.size - readOffset else bytesToRead
    readAtOffsetEvents (f.dataOffset + readOffset) bytesToRead

/-- Events of `getDirEntry`: `acquireLock`, seek, `binary.Read`,
`releaseLock`. -/
def getDirEntryEvents (f : File) (n : Int) : List StreamEvent :=
  if ¬f.IsDir then []
  else if n < 0 then []
  else if (f.size : Int) ≤ n then []
  else [.lockEv, .seekEv (f.dataOffset + n.toNat * fileStructSize),
    .readEv 64, .unlockEv]

/-- Events of `getFileName`: nothing for a short name, a locked
`readAtOffset` for a long one. -/
def getFileNameEvents (f : File) : List StreamEvent :=
  if f.nameSize ≤ 8 then []
  else [.lockEv] ++ readAtOffsetEvents f.nameOffset f.nameSize ++ [.unlockEv]

/-- Every seek and read happens at positive lock depth, and unlocks are
balanced. -/
def eventsLocked : Nat → List StreamEvent → Bool
  | _, [] => true
  | depth, .lockEv :: rest => eventsLocked (depth + 1) rest
  | depth, .unlockEv :: rest => depth ≠ 0 && eventsLocked (depth - 1) rest
  | depth, .seekEv _ :: rest => depth ≠ 0 && eventsLocked depth rest
  | depth, .readEv _ :: rest => depth ≠ 0 && eventsLocked depth rest

/-- The spec's shared-resource discipline: a `seek + read` pair happens only
while the mutex is held. -/
def mutexDiscipline (evs : List StreamEvent) : Bool := eventsLocked 0 evs

/-! ## Concrete inputs used to evaluate the code -/

/-- `fs.ModeDir | 0777`: a directory's mode word. -/
def dirMode : Nat := 2 ^ 31 + 511

/-- `0777`: a regular file's mode word. -/
def fileMode : Nat := 511

/-- A root directory holding files `"a"` (content `"hi"`) and `"b"`
(content `"yo"`); the root's `Stat` name is `"."`. -/
def twoFileTree : FSTree :=
  .dir [46] dirMode 0
    [.file [97] fileMode 0 [104, 105], .file [98] fileMode 0 [121, 111]]

/-- The packed stream of `twoFileTree` (196 bytes: three headers, then the
two payloads). -/
def twoFileBytes : List Nat :=
  match CreateSeekerFS twoFileTree noLimits with
  | .ok bytes => bytes
  | .error _ => []

/-- The loaded reader over `twoFileBytes`. -/
def twoFileFS : SeekerFS :=
  match NewSeekerFS twoFileBytes with
  | .ok p => p
  | .error _ => { stream := [], topFile := emptyFile }

/-- The base names of a tree's root directory entries. -/
def rootChildNames (t : FSTree) : List (List Nat) :=
  match t with
  | .dir _ _ _ cs => cs.map nameOf
  | .file _ _ _ _ => []

/-- The bytes of `"test1.txt"`. -/
def longName : List Nat := [116, 101, 115, 116, 49, 46, 116, 120, 116]

/-- A header for an entry named `"test1.txt"` (9 bytes): `ShortName` holds
the first 8 bytes, and the full name is out-of-line at `NameOffset = 0` of
`longNameFS`'s stream. -/
def longNameHeader : File :=
  { magic := magicBytes, mode := fileMode, shortName := longName.take 8,
    nameOffset := 0, nameSize := 9, dataOffset := 0, size := 0, modTime := 0 }

/-- A stream whose bytes 0–8 are the out-of-line name `"test1.txt"`. -/
def longNameFS : SeekerFS := { stream := longName, topFile := emptyFile }

/-- A regular-file header (`"a"`, 2 payload bytes at offset 64). -/
def c8File : File :=
  { magic := magicBytes, mode := fileMode, shortName := pad8 [97],
    nameOffset := 0, nameSize := 1, dataOffset := 64, size := 2, modTime := 0 }

/-- A directory header with two entries at offset 64. -/
def c8Dir : File :=
  { magic := magicBytes, mode := dirMode, shortName := pad8 [46],
    nameOffset := 0, nameSize := 1, dataOffset := 64, size := 2, modTime := 0 }

/-! ## Evaluating the reader's path resolution on a packed two-file tree

The claims C1 and C2 fail on this code: `getNamedDirEntry` narrows its
binary search in the wrong direction (`compareResult < 0`, i.e. entry name
less than the searched name, moves `endIndex` down instead of `beginIndex`
up), so over the ascending-sorted entries the writer produces, the search
walks away from the target.  Searching for a name smaller than the entry at
the midpoint drives `beginIndex` up to `Size`, where `getDirEntry` fails
with an index-range error rather than `fs.ErrNotExist`. -/

set_option maxRecDepth 40000 in
/-- Claim C1 (code bug): packing `twoFileTree` succeeds and loading the
stream succeeds, `"a"` is a root entry of the source — yet `Open("a")`
returns an error instead of a handle whose `Read` yields `"hi"`.
(`Open("b")`, the entry the midpoint probe happens to hit, still works and
round-trips its contents, so the failure is the search direction, not the
layout.) -/
theorem c1_pack_load_open_read :
    resultOk (CreateSeekerFS twoFileTree noLimits) = true ∧
    resultOk (NewSeekerFS twoFileBytes) = true ∧
    rootChildNames twoFileTree = [[97], [98]] ∧
    resultOk (twoFileFS.Open [97]) = false ∧
    twoFileFS.Open [98] = .ok (decodeFile (sliceBytes twoFileBytes 128 64)) ∧
    (match twoFileFS.Open [98] with
      | .ok f => seekerFileRead twoFileFS f 0 8
      | .error e => (.error e, 0)) = (.ok [121, 111], 2) := by
  decide

set_option maxRecDepth 40000 in
/-- Claim C2 (code bug): `"0"` (byte 48) is not a root entry of the packed
two-file directory, yet resolving it via `Open` fails with an index-range
error — the chain contains no `fs.ErrNotExist` — because the inverted
binary search runs past the last entry.  (For `"c"`, byte 99, the same
search happens to exhaust its interval and does produce the documented
not-exists path error, so the kind of error depends on the probed name.) -/
theorem c2_absent_name_error :
    (rootChildNames twoFileTree).contains [48] = false ∧
    resultOk (twoFileFS.Open [48]) = false ∧
    resultHasNotExist (twoFileFS.Open [48]) = false ∧
    resultHasTag (twoFileFS.Open [48]) .entryIndexRange = true ∧
    (rootChildNames twoFileTree).contains [99] = false ∧
    resultHasNotExist (twoFileFS.Open [99]) = true := by
  decide

set_option maxRecDepth 40000 in
/-- Claim C4 (code bug): for the entry `"test1.txt"` — whose `ShortName`
holds the first 8 bytes of its name and whose full name bytes sit at
`NameOffset` — `compareFileName` against the searched component
`"test1.txt"` returns `-1` without ever reading the out-of-line name,
although the byte-lexicographic comparison of the full names is `0`: when
the searched component has at least 8 bytes and ties on the first 8, the
code compares the 8-byte prefix against the whole component and only reads
the long name when that comparison returns 0, which requires the component
to be exactly 8 bytes long. -/
theorem c4_compare_file_name :
    longNameHeader.shortName = longName.take 8 ∧
    longNameHeader.nameSize = longName.length ∧
    getFileName longNameHeader longNameFS = .ok longName ∧
    compareFileName longNameHeader longNameFS longName = .ok (-1) ∧
    listCompare longName longName = 0 := by
  decide

set_option maxRecDepth 40000 in
/-- Claim C8 (code bug): `SeekerFSFile.Read`'s payload fetch issues its
seek + read pair with no lock event at all — `mutexDiscipline` fails on its
trace — while `getDirEntry`'s header fetch and `getFileName`'s out-of-line
name fetch both bracket their accesses with the mutex as the spec
requires. -/
theorem c8_read_without_lock :
    seekerFileReadEvents c8File 0 8 = [.seekEv 64, .readEv 2] ∧
    mutexDiscipline (seekerFileReadEvents c8File 0 8) = false ∧
    mutexDiscipline (getDirEntryEvents c8Dir 0) = true ∧
    mutexDiscipline (getFileNameEvents longNameHeader) = true := by
  decide

/-- Claim C5 (confirmed): on a non-directory handle whose payload lies
within the stream, `Read` with the cursor at or past `Size` returns `io.EOF`
leaving the cursor alone (in particular the first read of an empty file),
and otherwise returns exactly `min(len(buf), Size - cursor)` bytes taken
from stream offset `DataOffset + cursor`, advancing the cursor by that
count — never `io.EOF` on a call that returns bytes. -/
theorem c5_file_read (p : SeekerFS) (f : File) (ro bufLen : Nat)
    (hdir : f.IsDir = false)
    (hbound : f.dataOffset + f.size ≤ p.stream.length) :
    seekerFileRead p f ro bufLen =
      if f.size ≤ ro then (.error .eofErr, ro)
      else (.ok (sliceBytes p.stream (f.dataOffset + ro) (min bufLen (f.size - ro))),
            ro + min bufLen (f.size - ro)) := by
  rw [seekerFileRead]
  simp only [hdir, Bool.false_eq_true, if_false]
  by_cases hro : f.size ≤ ro
  · simp [hro]
  · simp only [hro, if_false]
    rw [readAtOffset]
    have harith : (if f.size < ro + bufLen then f.size - ro else bufLen) =
        min bufLen (f.size - ro) := by
      split_ifs with h <;> omega
    rw [harith, if_pos (by omega)]

/-- A regular-file header whose 3 payload bytes sit at offset 2. -/
def c5File : File :=
  { magic := magicBytes, mode := fileMode, shortName := pad8 [97],
    nameOffset := 0, nameSize := 1, dataOffset := 2, size := 3, modTime := 0 }

/-- Witness for C5 at a concrete stream and file: the payload is bytes
`[5, 6, 7]` at offset 2 of a 5-byte stream; reading 8 bytes from cursor 1
returns `[6, 7]` and leaves the cursor at 3. -/
theorem c5_file_read_witness :
    seekerFileRead { stream := [9, 9, 5, 6, 7], topFile := emptyFile } c5File 1 8 =
      if c5File.size ≤ 1 then (.error .eofErr, 1)
      else (.ok (sliceBytes [9, 9, 5, 6, 7] (c5File.dataOffset + 1)
              (min 8 (c5File.size - 1))), 1 + min 8 (c5File.size - 1)) :=
  c5_file_read { stream := [9, 9, 5, 6, 7], topFile := emptyFile } c5File 1 8
    (by decide) (by decide)

/-- Claim C6 (confirmed): `NewSeekerFS`/`LoadSeekerFS` succeeds exactly when
the source begins with 64 decodable bytes whose header has magic
`"1337FILE"`, has the directory bit set, and — the directory bit being
set — has `Size ≤ 2³¹ − 1`; wrong magic, an oversized directory size, or a
non-directory root each fail construction. -/
theorem c6_load_validation (bytes : List Nat) :
    resultOk (NewSeekerFS bytes) =
      (decide (64 ≤ bytes.length) &&
        decide ((decodeFile (bytes.take 64)).magic = magicBytes) &&
        (decodeFile (bytes.take 64)).IsDir &&
        decide ((decodeFile (bytes.take 64)).size ≤ 0x7fffffff)) := by
  simp only [NewSeekerFS, File.Validate]
  by_cases hlen : bytes.length < 64
  · have h64 : ¬(64 ≤ bytes.length) := by omega
    simp [hlen, h64, resultOk]
  · have h64 : 64 ≤ bytes.length := by omega
    simp only [hlen, if_false]
    by_cases hmagic : (decodeFile (bytes.take 64)).magic = magicBytes
    · by_cases hdir : (decodeFile (bytes.take 64)).IsDir = true
      · by_cases hbig : 0x7fffffff < (decodeFile (bytes.take 64)).size
        · have hsz : ¬((decodeFile (bytes.take 64)).size ≤ 0x7fffffff) := by
            omega
          simp [hmagic, hdir, hbig, hsz, resultOk]
        · have hsz : (decodeFile (bytes.take 64)).size ≤ 0x7fffffff := by omega
          simp [hmagic, hdir, hbig, hsz, h64, resultOk]
      · simp [hmagic, hdir, resultOk]
    · simp [hmagic, resultOk]

/-- Unfolding of `SeekableBuffer.write`: the result is a clamped store into
the (possibly zero-padded) data at the unchanged offset. -/
theorem seekableBuffer_write_spec (b : SeekableBuffer) (bs : List Nat) :
    (b.write bs).1.offset = b.offset ∧
    (b.write bs).2.1 = bs.length ∧ (b.write bs).2.2 = none ∧
    (b.write bs).1.data =
      storeAt (if b.data.length < b.offset + bs.length then
          b.data ++ List.replicate (b.offset + bs.length - b.data.length) 0
        else b.data) b.offset bs := by
  by_cases h : b.data.length < b.offset + bs.length
  · simp [SeekableBuffer.write, SeekableBuffer.expandToSize, h,
      show ¬(b.offset + bs.length < b.data.length) by omega]
  · simp [SeekableBuffer.write, h]

/-- Claim C9 (confirmed): `SeekableBuffer.Write` reports `len(data)` bytes
written and no error; it stores the bytes at the current `Offset`, growing
the buffer (zero-filling any gap) exactly when the write extends past the
end, and leaves every other existing byte and the `Offset` field unchanged —
so a second `Write` without an intervening `Seek` stores its bytes over the
same region. -/
theorem c9_seekable_buffer_write (b : SeekableBuffer) (bs cs : List Nat) :
    ((b.write bs).2.1 = bs.length) ∧
    ((b.write bs).2.2 = none) ∧
    ((b.write bs).1.offset = b.offset) ∧
    ((b.write bs).1.data.length = max b.data.length (b.offset + bs.length)) ∧
    (sliceBytes (b.write bs).1.data b.offset bs.length = bs) ∧
    (∀ j, j < b.offset ∨ b.offset + bs.length ≤ j →
      (b.write bs).1.data[j]? =
        if j < b.data.length then b.data[j]?
        else if j < b.offset + bs.length then some (0 : Nat) else none) ∧
    (sliceBytes ((b.write bs).1.write cs).1.data b.offset cs.length = cs) ∧
    (((b.write bs).1.write cs).1.offset = b.offset) := by
  obtain ⟨hoff, hcount, herr, hdata⟩ := seekableBuffer_write_spec b bs
  have hglen : (if b.data.length < b.offset + bs.length then
      b.data ++ List.replicate (b.offset + bs.length - b.data.length) 0
    else b.data).length = max b.data.length (b.offset + bs.length) := by
    split_ifs with h <;> simp <;> omega
  have hfit : b.offset + bs.length ≤
      (if b.data.length < b.offset + bs.length then
        b.data ++ List.replicate (b.offset + bs.length - b.data.length) 0
      else b.data).length := by
    rw [hglen]; omega
  refine ⟨hcount, herr, hoff, ?_, ?_, ?_, ?_, ?_⟩
  · rw [hdata, storeAt_length, hglen]
  · rw [hdata]
    exact sliceBytes_storeAt_same _ _ _ hfit
  · intro j hj
    rw [hdata, storeAt_getElem?_outside _ _ _ _ hj]
    by_cases hC : b.data.length < b.offset + bs.length
    · rw [if_pos hC]
      by_cases hjl : j < b.data.length
      · rw [if_pos hjl]
        exact List.getElem?_append_left hjl
      · rw [if_neg hjl]
        by_cases hjr : j < b.offset + bs.length
        · rw [if_pos hjr, List.getElem?_append_right (by omega),
            List.getElem?_replicate, if_pos (by omega)]
        · rw [if_neg hjr]
          exact List.getElem?_eq_none
            (by simp only [List.length_append, List.length_replicate]; omega)
    · rw [if_neg hC]
      by_cases hjl : j < b.data.length
      · rw [if_pos hjl]
      · rw [if_neg hjl, if_neg (by omega)]
        exact List.getElem?_eq_none (by omega)
  · obtain ⟨hoff', _, _, hdata'⟩ := seekableBuffer_write_spec (b.write bs).1 cs
    rw [hdata', hoff]
    apply sliceBytes_storeAt_same
    split_ifs with h
    · simp only [List.length_append, List.length_replicate]
      omega
    · omega
  · obtain ⟨hoff', _, _, _⟩ := seekableBuffer_write_spec (b.write bs).1 cs
    rw [hoff', hoff]

/-- Claim C10 (confirmed): on a regular-file handle, `Seek` with a `whence`
other than `io.SeekStart` (0), `io.SeekCurrent` (1) or `io.SeekEnd` (2)
returns an error after resetting the cursor to 0, whereas the
negative-offset error path (shown at `Seek(-1, io.SeekStart)`) leaves the
cursor unchanged. -/
theorem c10_seek_invalid_whence (f : File) (ro : Nat) (offset whence : Int)
    (hdir : f.IsDir = false)
    (hw0 : whence ≠ 0) (hw1 : whence ≠ 1) (hw2 : whence ≠ 2) :
    seekerFileSeek f ro offset whence = (.error (.errorf .invalidWhence), 0) ∧
    seekerFileSeek f ro (-1) 0 = (.error (.errorf .invalidNewOffset), ro) := by
  constructor
  · simp [seekerFileSeek, hdir, hw0, hw1, hw2]
  · simp [seekerFileSeek, hdir]

/-- Witness for C10: seeking with `whence = 5` on the file handle `c8File`
(cursor 7) errors and zeroes the cursor; seeking to `-1` from the start
errors and keeps the cursor at 7. -/
theorem c10_seek_invalid_whence_witness :
    seekerFileSeek c8File 7 3 5 = (.error (.errorf .invalidWhence), 0) ∧
    seekerFileSeek c8File 7 (-1) 0 = (.error (.errorf .invalidNewOffset), 7) :=
  c10_seek_invalid_whence c8File 7 3 5 (by decide) (by decide) (by decide)
    (by decide)

/-! ## Writer step lemmas

What each writer operation does to the output stream when it succeeds.
These hold for arbitrary settings: the caps can only abort an operation,
never change what a successful one wrote. -/

theorem outStream_write_at_end (o : OutStream) (bs : List Nat)
    (h : o.offset = o.data.length) :
    (o.write bs).data = o.data ++ bs ∧
    (o.write bs).offset = o.data.length + bs.length := by
  simp only [OutStream.write, h]
  refine ⟨?_, trivial⟩
  by_cases hbs : 0 < bs.length
  · rw [if_pos (by omega)]
    have hrep : o.data.length + bs.length - o.data.length = bs.length := by omega
    rw [hrep, storeAt_eq_of_le
      (by simp only [List.length_append, List.length_replicate]; omega)]
    rw [List.take_left, List.drop_eq_nil_of_le
      (by simp only [List.length_append, List.length_replicate]; omega)]
    simp
  · have hbs0 : bs = [] := List.eq_nil_of_length_eq_zero (by omega)
    subst hbs0
    rw [if_neg (by omega)]
    simp [storeAt_of_ge _ (le_refl o.data.length)]

theorem wDGL_ok {s : CreateFSSettings} {o o' : OutStream} {bs : List Nat}
    {loc : Nat} (h : writeDataAndGetLocation s o bs = .ok (o', loc)) :
    loc = o.data.length ∧ o'.data = o.data ++ bs ∧
    o'.offset = o.data.length + bs.length := by
  simp only [writeDataAndGetLocation, OutStream.seekEnd] at h
  rcases hc : checkWriteLimit s (o.data.length + bs.length) with e | u
  · rw [hc] at h
    exact absurd h (by simp)
  · rw [hc] at h
    simp only [Except.ok.injEq, Prod.mk.injEq] at h
    obtain ⟨ho, hloc⟩ := h
    obtain ⟨hd, hoff⟩ := outStream_write_at_end
      { data := o.data, offset := o.data.length } bs rfl
    subst ho
    exact ⟨hloc.symm, hd, hoff⟩

theorem wDAL_ok {s : CreateFSSettings} {o o' : OutStream} {bs : List Nat}
    {off : Nat} (h : writeDataAtLocation s o bs off = .ok o')
    (hfit : off + bs.length ≤ o.data.length) :
    o'.data = storeAt o.data off bs ∧ o'.data.length = o.data.length ∧
    o'.offset = off + bs.length := by
  simp only [writeDataAtLocation, OutStream.seekTo] at h
  rcases hc : checkWriteLimit s (off + bs.length) with e | u
  · rw [hc] at h
    exact absurd h (by simp)
  · rw [hc] at h
    simp only [Except.ok.injEq] at h
    subst h
    simp only [OutStream.write]
    rw [if_neg (by omega)]
    exact ⟨rfl, storeAt_length _ _ _, trivial⟩

/-! ## What one stack step writes

Specification-side descriptions of a successful `reserveHeaderAndEnqueue`,
`writeFileContent` and `writeDirContent`: each is the base data, plus an
appended blob, plus one 64-byte back-patch at the reserved slot. -/

/-- The queue entries `reserveChildren` produces: one per child, with
contiguous 64-byte header slots starting at `base`. -/
def buildItems : List FSTree → Nat → Nat → List QueueItem
  | [], _, _ => []
  | c :: rest, base, d =>
    { tree := c, fileHeaderOffset := base, depth := d } :: buildItems rest (base + 64) d

/-- The bytes a header write appends for the entry's name: the full name
exactly when it does not fit `ShortName`. -/
def nameBlob (name : List Nat) : List Nat := if 8 < name.length then name else []

/-- The `NameOffset` field the writer records when the end of the stream was
at `base` before the name write: `base` for a long name, 0 otherwise. -/
def nameOffsetOf (base : Nat) (name : List Nat) : Nat :=
  if 8 < name.length then base else 0

/-- The header `writeFileContent` back-patches, when the stream end was at
`base` before the name write. -/
def fileHeaderFor (name : List Nat) (mode modTime : Nat) (content : List Nat)
    (base : Nat) : File :=
  { getSeekerFSHeader name mode modTime with
    nameOffset := nameOffsetOf base name,
    size := content.length,
    dataOffset := if 0 < content.length then base + (nameBlob name).length else 0 }

/-- The header `writeDirContent` back-patches for a directory of `n`
children, when the stream end was at `base` before the name write. -/
def dirHeaderFor (name : List Nat) (mode modTime : Nat) (n : Nat)
    (base : Nat) : File :=
  { getSeekerFSHeader name mode modTime with
    nameOffset := nameOffsetOf base name,
    dataOffset := if n = 0 then 0 else base + (nameBlob name).length,
    size := n }

theorem buildItems_length (cs : List FSTree) (base d : Nat) :
    (buildItems cs base d).length = cs.length := by
  induction cs generalizing base with
  | nil => rfl
  | cons c rest ih => simp [buildItems, ih]

theorem buildItems_mem : ∀ {cs : List FSTree} {base d : Nat} {it : QueueItem},
    it ∈ buildItems cs base d →
    it.tree ∈ cs ∧ it.depth = d ∧ base ≤ it.fileHeaderOffset ∧
    it.fileHeaderOffset + 64 ≤ base + 64 * cs.length
  | [], base, d, it, h => by simp [buildItems] at h
  | c :: rest, base, d, it, h => by
    rw [buildItems] at h
    rcases List.mem_cons.mp h with h | h
    · subst h
      refine ⟨List.mem_cons_self _ _, rfl, le_refl _, ?_⟩
      simp only [List.length_cons]
      omega
    · obtain ⟨h1, h2, h3, h4⟩ := buildItems_mem h
      refine ⟨List.mem_cons_of_mem _ h1, h2, by omega, ?_⟩
      simp only [List.length_cons]
      omega

theorem buildItems_pairwise (cs : List FSTree) (base d : Nat) :
    List.Pairwise (fun a b : QueueItem =>
      a.fileHeaderOffset + 64 ≤ b.fileHeaderOffset ∨
      b.fileHeaderOffset + 64 ≤ a.fileHeaderOffset) (buildItems cs base d) := by
  induction cs generalizing base with
  | nil => exact List.Pairwise.nil
  | cons c rest ih =>
    rw [buildItems]
    refine List.Pairwise.cons ?_ (ih (base + 64))
    intro b hb
    obtain ⟨_, _, h3, _⟩ := buildItems_mem hb
    left
    simpa using h3

theorem buildItems_getElem? (cs : List FSTree) (base d : Nat) (i : Nat) :
    (buildItems cs base d)[i]? =
      (cs[i]?).map fun c =>
        ({ tree := c, fileHeaderOffset := base + 64 * i, depth := d } : QueueItem) := by
  induction cs generalizing base i with
  | nil => simp [buildItems]
  | cons c rest ih =>
    cases i with
    | zero => simp [buildItems]
    | succ i =>
      rw [buildItems]
      simp only [List.getElem?_cons_succ]
      rw [ih (base + 64) i]
      have harith : base + 64 + 64 * i = base + 64 * (i + 1) := by omega
      rw [harith]

theorem buildItems_map_tree (cs : List FSTree) (base d : Nat) :
    (buildItems cs base d).map QueueItem.tree = cs := by
  induction cs generalizing base with
  | nil => rfl
  | cons c rest ih => simp [buildItems, ih]

theorem wrapTag_ok {r : Except GoError α} {t : ErrTag} {a : α} :
    wrapTag r t = .ok a ↔ r = .ok a := by
  cases r <;> simp [wrapTag]

theorem reserve_ok {s : CreateFSSettings} {st : WriterState} {t : FSTree}
    {d : Nat} {st' : WriterState} {item : QueueItem}
    (h : reserveHeaderAndEnqueue s st t d = .ok (st', item)) :
    st'.out.data = st.out.data ++ List.replicate 64 0 ∧
    item.tree = t ∧ item.depth = d ∧
    item.fileHeaderOffset = st.out.data.length ∧
    st'.totalFilesWritten = st.totalFilesWritten + 1 := by
  simp only [reserveHeaderAndEnqueue] at h
  split at h
  · exact absurd h (by simp)
  · split at h
    · exact absurd h (by simp)
    · split at h
      · exact absurd h (by simp)
      · rename_i o2 loc hw
        obtain ⟨hloc, hdata, _⟩ := wDGL_ok (wrapTag_ok.mp hw)
        simp only [Except.ok.injEq, Prod.mk.injEq] at h
        obtain ⟨hst, hitem⟩ := h
        subst hst
        subst hitem
        refine ⟨?_, rfl, rfl, hloc, rfl⟩
        show o2.data = st.out.data ++ List.replicate 64 0
        rw [hdata, encodeFile_emptyFile]

theorem reserveChildren_ok {s : CreateFSSettings} :
    ∀ (cs : List FSTree) (st : WriterState) (d : Nat) (st' : WriterState)
      (items : List QueueItem),
    reserveChildren s st cs d = .ok (st', items) →
    st'.out.data = st.out.data ++ List.replicate (64 * cs.length) 0 ∧
    items = buildItems cs st.out.data.length d
  | [], st, d, st', items, h => by
    simp only [reserveChildren, Except.ok.injEq, Prod.mk.injEq] at h
    obtain ⟨h1, h2⟩ := h
    subst h1
    subst h2
    simp [buildItems]
  | c :: rest, st, d, st', items, h => by
    simp only [reserveChildren] at h
    split at h
    · exact absurd h (by simp)
    · rename_i st1 item hw
      split at h
      · exact absurd h (by simp)
      · rename_i st2 items2 hrest
        obtain ⟨hdata1, htree, hdepth, hslot, _⟩ := reserve_ok (wrapTag_ok.mp hw)
        simp only [Except.ok.injEq, Prod.mk.injEq] at h
        obtain ⟨h1, h2⟩ := h
        obtain ⟨hdata2, hitems2⟩ := reserveChildren_ok rest st1 d st2 items2 hrest
        rw [← h1, ← h2]
        constructor
        · rw [hdata2, hdata1, List.append_assoc, ← List.replicate_add]
          have : 64 + 64 * rest.length = 64 * (c :: rest).length := by
            simp only [List.length_cons]
            ring
          rw [this]
        · rw [buildItems, hitems2, hdata1]
          have hlen : (st.out.data ++ List.replicate 64 0).length =
              st.out.data.length + 64 := by simp
          rw [hlen]
          congr 1
          cases item
          simp only [QueueItem.mk.injEq]
          exact ⟨htree, hslot, hdepth⟩

theorem writeFileContent_ok {s : CreateFSSettings} {st : WriterState}
    {name : List Nat} {mode modTime : Nat} {content : List Nat} {slot : Nat}
    {st' : WriterState}
    (h : writeFileContent s st name mode modTime content slot = .ok st')
    (hslot : slot + 64 ≤ st.out.data.length) :
    st'.out.data = storeAt (st.out.data ++ nameBlob name ++ content) slot
      (encodeFile (fileHeaderFor name mode modTime content st.out.data.length)) ∧
    st'.out.data.length = st.out.data.length + (nameBlob name).length + content.length := by
  simp only [writeFileContent] at h
  split at h
  · exact absurd h (by simp)
  · rename_i o1 nameOffset hname
    have hstep1 : o1.data = st.out.data ++ nameBlob name ∧
        nameOffset = nameOffsetOf st.out.data.length name := by
      by_cases hn : 8 < name.length
      · rw [if_pos hn] at hname
        obtain ⟨hloc, hdata, _⟩ := wDGL_ok (wrapTag_ok.mp hname)
        exact ⟨by rw [hdata, nameBlob, if_pos hn],
          by rw [hloc, nameOffsetOf, if_pos hn]⟩
      · rw [if_neg hn] at hname
        simp only [Except.ok.injEq, Prod.mk.injEq] at hname
        obtain ⟨h1, h2⟩ := hname
        exact ⟨by rw [← h1, nameBlob, if_neg hn, List.append_nil],
          by rw [← h2, nameOffsetOf, if_neg hn]⟩
    obtain ⟨ho1, hnameOff⟩ := hstep1
    split at h
    · exact absurd h (by simp)
    · rename_i o2 dataOffset hcontent
      have hstep2 : o2.data = st.out.data ++ nameBlob name ++ content ∧
          dataOffset = (if 0 < content.length then
            st.out.data.length + (nameBlob name).length else 0) := by
        by_cases hc : 0 < content.length
        · rw [if_pos hc] at hcontent
          simp only [OutStream.seekEnd] at hcontent
          split at hcontent
          · exact absurd hcontent (by simp)
          · simp only [Except.ok.injEq, Prod.mk.injEq] at hcontent
            obtain ⟨h1, h2⟩ := hcontent
            obtain ⟨hw1, _⟩ := outStream_write_at_end
              { data := o1.data, offset := o1.data.length } content rfl
            refine ⟨?_, ?_⟩
            · rw [← h1, hw1, ho1]
            · rw [← h2, if_pos hc, ho1]
              simp
        · rw [if_neg hc] at hcontent
          simp only [Except.ok.injEq, Prod.mk.injEq] at hcontent
          obtain ⟨h1, h2⟩ := hcontent
          have hc0 : content = [] := List.eq_nil_of_length_eq_zero (by omega)
          subst hc0
          exact ⟨by rw [← h1, ho1, List.append_nil], by rw [← h2, if_neg hc]⟩
      obtain ⟨ho2, hdataOff⟩ := hstep2
      split at h
      · exact absurd h (by simp)
      · rename_i o3 hpatch
        obtain ⟨hp1, hp2, _⟩ := wDAL_ok (wrapTag_ok.mp hpatch)
          (by rw [ho2]
              simp only [List.length_append, encodeFile_length]
              omega)
        simp only [Except.ok.injEq] at h
        rw [← h]
        have hhdr : ({ getSeekerFSHeader name mode modTime with
            nameOffset := nameOffset, size := content.length,
            dataOffset := dataOffset } : File) =
            fileHeaderFor name mode modTime content st.out.data.length := by
          rw [fileHeaderFor, hnameOff, hdataOff]
        constructor
        · show o3.data = _
          rw [hp1, ho2, hhdr]
        · show o3.data.length = _
          rw [hp2, ho2]
          simp only [List.length_append]

theorem writeDirContent_ok {s : CreateFSSettings} {st : WriterState}
    {name : List Nat} {mode modTime : Nat} {cs : List FSTree}
    {slot depth : Nat} {st' : WriterState} {items : List QueueItem}
    (h : writeDirContent s st name mode modTime cs slot depth = .ok (st', items))
    (hslot : slot + 64 ≤ st.out.data.length) :
    st'.out.data = storeAt
      (st.out.data ++ nameBlob name ++ List.replicate (64 * cs.length) 0) slot
      (encodeFile (dirHeaderFor name mode modTime cs.length st.out.data.length)) ∧
    st'.out.data.length =
      st.out.data.length + (nameBlob name).length + 64 * cs.length ∧
    items = buildItems (sortByName cs)
      (st.out.data.length + (nameBlob name).length) (depth + 1) := by
  simp only [writeDirContent] at h
  split at h
  · exact absurd h (by simp)
  · rename_i o1 nameOffset hname
    have hstep1 : o1.data = st.out.data ++ nameBlob name ∧
        nameOffset = nameOffsetOf st.out.data.length name := by
      by_cases hn : 8 < name.length
      · rw [if_pos hn] at hname
        obtain ⟨hloc, hdata, _⟩ := wDGL_ok (wrapTag_ok.mp hname)
        exact ⟨by rw [hdata, nameBlob, if_pos hn],
          by rw [hloc, nameOffsetOf, if_pos hn]⟩
      · rw [if_neg hn] at hname
        simp only [Except.ok.injEq, Prod.mk.injEq] at hname
        obtain ⟨h1, h2⟩ := hname
        exact ⟨by rw [← h1, nameBlob, if_neg hn, List.append_nil],
          by rw [← h2, nameOffsetOf, if_neg hn]⟩
    obtain ⟨ho1, hnameOff⟩ := hstep1
    split at h
    · rename_i hempty
      have hcs : cs = [] := List.isEmpty_iff.mp hempty
      subst hcs
      split at h
      · exact absurd h (by simp)
      · rename_i o2 hpatch
        obtain ⟨hp1, hp2, _⟩ := wDAL_ok (wrapTag_ok.mp hpatch)
          (by rw [ho1]
              simp only [List.length_append, encodeFile_length]
              omega)
        simp only [Except.ok.injEq, Prod.mk.injEq] at h
        obtain ⟨h1, h2⟩ := h
        rw [← h1, ← h2]
        have hhdr : ({ getSeekerFSHeader name mode modTime with
            nameOffset := nameOffset } : File) =
            dirHeaderFor name mode modTime 0 st.out.data.length := by
          rw [dirHeaderFor, hnameOff]
          simp [getSeekerFSHeader]
        refine ⟨?_, ?_, ?_⟩
        · show o2.data = _
          rw [hp1, ho1, hhdr]
          simp [List.append_nil]
        · show o2.data.length = _
          rw [hp2, ho1]
          simp
        · simp [sortByName, List.insertionSort, buildItems]
    · rename_i hempty
      have hcs : cs ≠ [] := by
        intro hceq
        rw [hceq] at hempty
        exact hempty rfl
      split at h
      · exact absurd h (by simp)
      · rename_i st2 items2 hchildren
        obtain ⟨hcdata, hcitems⟩ :=
          reserveChildren_ok (sortByName cs) { st with out := o1.seekEnd.1 }
            (depth + 1) st2 items2 hchildren
        split at h
        · exact absurd h (by simp)
        · rename_i o3 hpatch
          have hseeklen : ({ st with out := o1.seekEnd.1 } : WriterState).out.data
              = o1.data := by
            simp [OutStream.seekEnd]
          have hsortlen : (sortByName cs).length = cs.length :=
            (sortByName_perm cs).length_eq
          obtain ⟨hp1, hp2, _⟩ := wDAL_ok (wrapTag_ok.mp hpatch)
            (by rw [hcdata, hseeklen, ho1]
                simp only [List.length_append, List.length_replicate,
                  encodeFile_length]
                omega)
          simp only [Except.ok.injEq, Prod.mk.injEq] at h
          obtain ⟨h1, h2⟩ := h
          rw [← h1, ← h2]
          have hseekend : (o1.seekEnd.2 : Nat) = o1.data.length := rfl
          have hhdr : ({ getSeekerFSHeader name mode modTime with
              nameOffset := nameOffset, dataOffset := o1.seekEnd.2,
              size := cs.length } : File) =
              dirHeaderFor name mode modTime cs.length st.out.data.length := by
            rw [dirHeaderFor, hnameOff, hseekend, ho1]
            have : cs.length ≠ 0 := by
              intro h0
              exact hcs (List.eq_nil_of_length_eq_zero h0)
            simp only [if_neg this, List.length_append]
          have hlen2 : st2.out.data = st.out.data ++ nameBlob name ++
              List.replicate (64 * cs.length) 0 := by
            rw [hcdata, hseeklen, hsortlen, ho1]
          refine ⟨?_, ?_, ?_⟩
          · show o3.data = _
            rw [hp1, hlen2, hhdr]
          · show o3.data.length = _
            rw [hp2, hlen2]
            simp only [List.length_append, List.length_replicate]
          · rw [hcitems]
            congr 1
            show o1.data.length = st.out.data.length + (nameBlob name).length
            rw [ho1]
            simp only [List.length_append]

/-! ## The layout invariant of a packed stream (claim C3)

`PackedSubtreeOk out t slot` says: the 64 bytes of `out` at `slot` encode a
header that carries `t`'s metadata (magic, mode, short name, name size, mod
time, and — for a long name — the full name bytes at its `NameOffset`), and

* for a regular file, `Size` is the content length and the content bytes
  sit at `DataOffset`;
* for a directory, `Size` is the child count, the sibling names in their
  packed order are pairwise strictly byte-ascending, and the children's
  header records occupy exactly the contiguous 64-byte slots `DataOffset`,
  `DataOffset + 64`, …, `DataOffset + 64·(n−1)` — each itself a packed
  subtree. -/

def headerMatches (out : List Nat) (h : File) (name : List Nat)
    (mode modTime : Nat) : Prop :=
  h.magic = magicBytes ∧ h.mode = mode ∧ h.shortName = pad8 name ∧
  h.nameSize = name.length ∧ h.modTime = modTime ∧
  (8 < name.length → sliceBytes out h.nameOffset name.length = name)

theorem sortByName_treeSizeList (l : List FSTree) :
    treeSizeList (sortByName l) = treeSizeList l := by
  rw [treeSizeList_eq_sum, treeSizeList_eq_sum]
  exact ((sortByName_perm l).map treeSize).sum_eq

mutual
def PackedSubtreeOk (out : List Nat) : FSTree → Nat → Prop
  | .file name mode modTime content, slot =>
    ∃ h : File, sliceBytes out slot 64 = encodeFile h ∧
      headerMatches out h name mode modTime ∧
      h.size = content.length ∧
      (0 < content.length → sliceBytes out h.dataOffset content.length = content)
  | .dir name mode modTime cs, slot =>
    ∃ h : File, sliceBytes out slot 64 = encodeFile h ∧
      headerMatches out h name mode modTime ∧
      h.size = cs.length ∧
      List.Pairwise (fun a b => byteLt (nameOf a) (nameOf b) = true) (sortByName cs) ∧
      PackedChildrenOk out (sortByName cs) h.dataOffset
  termination_by t _ => 2 * treeSize t
  decreasing_by
    rw [sortByName_treeSizeList, treeSize]
    omega
def PackedChildrenOk (out : List Nat) : List FSTree → Nat → Prop
  | [], _ => True
  | c :: rest, off => PackedSubtreeOk out c off ∧ PackedChildrenOk out rest (off + 64)
  termination_by l _ => 2 * treeSizeList l + 1
  decreasing_by
    · rw [treeSizeList]
      omega
    · rw [treeSizeList]
      have := treeSize_pos c
      omega
end

/-- Two queue entries own non-overlapping 64-byte header slots. -/
abbrev slotsDisjoint (a b : QueueItem) : Prop :=
  a.fileHeaderOffset + 64 ≤ b.fileHeaderOffset ∨
  b.fileHeaderOffset + 64 ≤ a.fileHeaderOffset

/-- The work loop only appends past the starting length and back-patches
the reserved slots of pending entries: every starting byte outside those
slots survives to the final stream, and the stream never shrinks. -/
theorem processLoop_frame {s : CreateFSSettings} :
    ∀ (fuel : Nat) (st : WriterState) (stack : List QueueItem)
      (fin : WriterState),
      processLoop s fuel st stack = .ok fin →
      (∀ it ∈ stack, it.fileHeaderOffset + 64 ≤ st.out.data.length) →
      st.out.data.length ≤ fin.out.data.length ∧
      ∀ j, j < st.out.data.length →
        (∀ it ∈ stack, j < it.fileHeaderOffset ∨ it.fileHeaderOffset + 64 ≤ j) →
        fin.out.data[j]? = st.out.data[j]?
  | 0, st, stack, fin, h, _ => by
    simp [processLoop] at h
  | fuel + 1, st, [], fin, h, _ => by
    simp only [processLoop, Except.ok.injEq] at h
    subst h
    exact ⟨le_refl _, fun j _ _ => rfl⟩
  | fuel + 1, st, item :: rest, fin, h, hb => by
    simp only [processLoop] at h
    have hslot : item.fileHeaderOffset + 64 ≤ st.out.data.length :=
      hb item (List.mem_cons_self _ _)
    split at h
    · split at h
      · exact absurd h (by simp)
      · rename_i st1 hstep
        obtain ⟨hdata1, hlen1⟩ := writeFileContent_ok (wrapTag_ok.mp hstep) hslot
        have hb1 : ∀ it ∈ rest, it.fileHeaderOffset + 64 ≤ st1.out.data.length := by
          intro it hit
          have := hb it (List.mem_cons_of_mem _ hit)
          omega
        obtain ⟨hmono, hagree⟩ := processLoop_frame fuel st1 rest fin h hb1
        refine ⟨by omega, ?_⟩
        intro j hj hexc
        rw [hagree j (by omega) (fun it hit => hexc it (List.mem_cons_of_mem _ hit))]
        rw [hdata1, storeAt_getElem?_outside _ _ _ _
          (by rw [encodeFile_length]
              exact hexc item (List.mem_cons_self _ _))]
        rw [List.getElem?_append_left (by simp only [List.length_append]; omega),
          List.getElem?_append_left hj]
    · rename_i name mode modTime cs heq
      split at h
      · exact absurd h (by simp)
      · rename_i st1 items hstep
        obtain ⟨hdata1, hlen1, hitems⟩ := writeDirContent_ok (wrapTag_ok.mp hstep) hslot
        have hsortlen : (sortByName cs).length = cs.length :=
          (sortByName_perm cs).length_eq
        have hitemmem : ∀ it ∈ items,
            st.out.data.length + (nameBlob name).length ≤ it.fileHeaderOffset ∧
            it.fileHeaderOffset + 64 ≤ st1.out.data.length := by
          intro it hit
          rw [hitems] at hit
          obtain ⟨_, _, h3, h4⟩ := buildItems_mem hit
          rw [hsortlen] at h4
          omega
        have hb1 : ∀ it ∈ items.reverse ++ rest,
            it.fileHeaderOffset + 64 ≤ st1.out.data.length := by
          intro it hit
          rcases List.mem_append.mp hit with hit | hit
          · exact (hitemmem it (List.mem_reverse.mp hit)).2
          · have := hb it (List.mem_cons_of_mem _ hit)
            omega
        obtain ⟨hmono, hagree⟩ := processLoop_frame fuel st1 _ fin h hb1
        refine ⟨by omega, ?_⟩
        intro j hj hexc
        rw [hagree j (by omega) ?exc1]
        case exc1 =>
          intro it hit
          rcases List.mem_append.mp hit with hit | hit
          · left
            have := (hitemmem it (List.mem_reverse.mp hit)).1
            omega
          · exact hexc it (List.mem_cons_of_mem _ hit)
        rw [hdata1, storeAt_getElem?_outside _ _ _ _
          (by rw [encodeFile_length]
              exact hexc item (List.mem_cons_self _ _))]
        rw [List.getElem?_append_left (by simp only [List.length_append]; omega),
          List.getElem?_append_left hj]

theorem sliceBytes_storeAt_outside (l : List Nat) (i : Nat) (v : List Nat)
    (off n : Nat) (h : off + n ≤ i ∨ i + v.length ≤ off) :
    sliceBytes (storeAt l i v) off n = sliceBytes l off n := by
  apply sliceBytes_congr
  intro j hj1 hj2
  exact storeAt_getElem?_outside _ _ _ _ (by omega)

theorem sliceBytes_append_mid (A B C : List Nat) :
    sliceBytes (A ++ B ++ C) A.length B.length = B := by
  rw [List.append_assoc, sliceBytes_append_right]
  simp [sliceBytes, List.take_left]

theorem uniqueSiblingNamesList_forall {cs : List FSTree}
    (h : uniqueSiblingNamesList cs = true) :
    ∀ c ∈ cs, uniqueSiblingNames c = true := by
  induction cs with
  | nil => intro c hc; simp at hc
  | cons c rest ih =>
    rw [uniqueSiblingNamesList, Bool.and_eq_true] at h
    intro x hx
    rcases List.mem_cons.mp hx with hx | hx
    · subst hx; exact h.1
    · exact ih h.2 x hx

theorem uniqueSiblingNames_dir {n : List Nat} {m t : Nat} {cs : List FSTree}
    (h : uniqueSiblingNames (.dir n m t cs) = true) :
    (cs.map nameOf).Nodup ∧ ∀ c ∈ cs, uniqueSiblingNames c = true := by
  rw [uniqueSiblingNames, Bool.and_eq_true] at h
  exact ⟨by simpa using h.1, uniqueSiblingNamesList_forall h.2⟩

theorem sliceBytes_all (l : List Nat) : sliceBytes l 0 l.length = l := by
  simp [sliceBytes]

theorem packedChildrenOk_of_buildItems {out : List Nat} :
    ∀ {l : List FSTree} {base d : Nat},
    (∀ it ∈ buildItems l base d, PackedSubtreeOk out it.tree it.fileHeaderOffset) →
    PackedChildrenOk out l base
  | [], base, d, _ => by
    rw [PackedChildrenOk]
    trivial
  | c :: rest, base, d, h => by
    rw [PackedChildrenOk]
    constructor
    · exact h _ (by rw [buildItems]; exact List.mem_cons_self _ _)
    · exact packedChildrenOk_of_buildItems
        (fun it hit => h it (by rw [buildItems]; exact List.mem_cons_of_mem _ hit))

/-- Main correctness of the work loop: when it succeeds, every pending
entry's subtree — provided sibling names are unique — ends up packed at its
reserved slot in the final stream, with sorted, contiguous child header
blocks at every directory. -/
theorem processLoop_good {s : CreateFSSettings} :
    ∀ (fuel : Nat) (st : WriterState) (stack : List QueueItem)
      (fin : WriterState),
      processLoop s fuel st stack = .ok fin →
      (∀ it ∈ stack, it.fileHeaderOffset + 64 ≤ st.out.data.length) →
      List.Pairwise slotsDisjoint stack →
      (∀ it ∈ stack, uniqueSiblingNames it.tree = true) →
      ∀ it ∈ stack, PackedSubtreeOk fin.out.data it.tree it.fileHeaderOffset
  | 0, st, stack, fin, h, _, _, _ => by simp [processLoop] at h
  | fuel + 1, st, [], fin, h, _, _, _ => by
    intro it hit
    simp at hit
  | fuel + 1, st, item :: rest, fin, h, hb, hpair, huniq => by
    simp only [processLoop] at h
    have hslot : item.fileHeaderOffset + 64 ≤ st.out.data.length :=
      hb item (List.mem_cons_self _ _)
    have hheaddisj := (List.pairwise_cons.mp hpair).1
    have hpairrest := (List.pairwise_cons.mp hpair).2
    split at h
    · -- regular file
      rename_i name mode modTime content heq
      split at h
      · exact absurd h (by simp)
      · rename_i st1 hstep
        obtain ⟨hdata1, hlen1⟩ := writeFileContent_ok (wrapTag_ok.mp hstep) hslot
        have hb1 : ∀ b ∈ rest, b.fileHeaderOffset + 64 ≤ st1.out.data.length := by
          intro b hb'
          have := hb b (List.mem_cons_of_mem _ hb')
          omega
        obtain ⟨hmono, hagree⟩ := processLoop_frame fuel st1 rest fin h hb1
        have hpersist : ∀ off n, off + n ≤ st1.out.data.length →
            (∀ b ∈ rest, off + n ≤ b.fileHeaderOffset ∨
              b.fileHeaderOffset + 64 ≤ off) →
            sliceBytes fin.out.data off n = sliceBytes st1.out.data off n := by
          intro off n hn hexc
          apply sliceBytes_congr
          intro j hj1 hj2
          refine hagree j (by omega) ?_
          intro b hb'
          rcases hexc b hb' with hx | hx
          · left; omega
          · right; omega
        intro it hit
        rcases List.mem_cons.mp hit with hit | hit
        · subst hit
          rw [heq, PackedSubtreeOk]
          refine ⟨fileHeaderFor name mode modTime content st.out.data.length,
            ?_, ⟨rfl, rfl, rfl, rfl, rfl, ?_⟩, rfl, ?_⟩
          · -- the patched header survives at the slot
            have hsl1 : sliceBytes st1.out.data it.fileHeaderOffset 64 =
                encodeFile (fileHeaderFor name mode modTime content
                  st.out.data.length) := by
              have hfit := sliceBytes_storeAt_same
                (st.out.data ++ nameBlob name ++ content) it.fileHeaderOffset
                (encodeFile (fileHeaderFor name mode modTime content
                  st.out.data.length))
                (by simp only [List.length_append, encodeFile_length]; omega)
              rw [encodeFile_length] at hfit
              rw [hdata1]
              exact hfit
            rw [← hsl1]
            apply hpersist
            · omega
            · intro b hb'
              rcases hheaddisj b hb' with hx | hx
              · left; omega
              · right; omega
          · -- long names survive out-of-line
            intro hn
            have hblob : nameBlob name = name := by rw [nameBlob, if_pos hn]
            show sliceBytes fin.out.data
              (nameOffsetOf st.out.data.length name) name.length = name
            rw [nameOffsetOf, if_pos hn]
            have hsl1 : sliceBytes st1.out.data st.out.data.length
                (nameBlob name).length = nameBlob name := by
              rw [hdata1, sliceBytes_storeAt_outside _ _ _ _ _
                (by rw [encodeFile_length]; right; omega)]
              exact sliceBytes_append_mid st.out.data (nameBlob name) content
            rw [hblob] at hsl1
            rw [hpersist st.out.data.length name.length
              (by rw [hlen1, hblob]; omega)
              (fun b hb' => Or.inr (by
                have := hb b (List.mem_cons_of_mem _ hb')
                omega))]
            exact hsl1
          · -- content bytes survive
            intro hc
            show sliceBytes fin.out.data
              (if 0 < content.length then
                st.out.data.length + (nameBlob name).length else 0)
              content.length = content
            rw [if_pos hc]
            have hsl1 : sliceBytes st1.out.data
                (st.out.data.length + (nameBlob name).length)
                content.length = content := by
              rw [hdata1, sliceBytes_storeAt_outside _ _ _ _ _
                (by rw [encodeFile_length]; right; omega)]
              have hA : st.out.data.length + (nameBlob name).length =
                  (st.out.data ++ nameBlob name).length := by
                simp only [List.length_append]
              rw [hA, sliceBytes_append_right]
              exact sliceBytes_all content
            rw [hpersist (st.out.data.length + (nameBlob name).length)
              content.length
              (by omega)
              (fun b hb' => Or.inr (by
                have := hb b (List.mem_cons_of_mem _ hb')
                omega))]
            exact hsl1
        · exact processLoop_good fuel st1 rest fin h hb1 hpairrest
            (fun b hb' => huniq b (List.mem_cons_of_mem _ hb')) it hit
    · -- directory
      rename_i name mode modTime cs heq
      split at h
      · exact absurd h (by simp)
      · rename_i st1 items hstep
        obtain ⟨hdata1, hlen1, hitems⟩ :=
          writeDirContent_ok (wrapTag_ok.mp hstep) hslot
        have hsortlen : (sortByName cs).length = cs.length :=
          (sortByName_perm cs).length_eq
        have hitemmem : ∀ b ∈ items,
            st.out.data.length + (nameBlob name).length ≤ b.fileHeaderOffset ∧
            b.fileHeaderOffset + 64 ≤ st1.out.data.length ∧
            b.tree ∈ cs ∧ b.depth = item.depth + 1 := by
          intro b hb'
          rw [hitems] at hb'
          obtain ⟨h1, h2, h3, h4⟩ := buildItems_mem hb'
          rw [hsortlen] at h4
          exact ⟨h3, by omega, mem_sortByName.mp h1, h2⟩
        have hb1 : ∀ b ∈ items.reverse ++ rest,
            b.fileHeaderOffset + 64 ≤ st1.out.data.length := by
          intro b hb'
          rcases List.mem_append.mp hb' with hb' | hb'
          · exact (hitemmem b (List.mem_reverse.mp hb')).2.1
          · have := hb b (List.mem_cons_of_mem _ hb')
            omega
        have hpair1 : List.Pairwise slotsDisjoint (items.reverse ++ rest) := by
          refine List.pairwise_append.mpr ⟨?_, hpairrest, ?_⟩
          · refine List.pairwise_reverse.mpr ?_
            rw [hitems]
            exact (buildItems_pairwise _ _ _).imp Or.symm
          · intro a ha b hb'
            right
            have h1 := (hitemmem a (List.mem_reverse.mp ha)).1
            have h2 := hb b (List.mem_cons_of_mem _ hb')
            omega
        have huniq1 : ∀ b ∈ items.reverse ++ rest,
            uniqueSiblingNames b.tree = true := by
          intro b hb'
          rcases List.mem_append.mp hb' with hb' | hb'
          · have hd := uniqueSiblingNames_dir (heq ▸ huniq item (List.mem_cons_self _ _))
            exact hd.2 _ (hitemmem b (List.mem_reverse.mp hb')).2.2.1
          · exact huniq b (List.mem_cons_of_mem _ hb')
        obtain ⟨hmono, hagree⟩ := processLoop_frame fuel st1 _ fin h hb1
        have hpersist : ∀ off n, off + n ≤ st1.out.data.length →
            (∀ b ∈ items.reverse ++ rest, off + n ≤ b.fileHeaderOffset ∨
              b.fileHeaderOffset + 64 ≤ off) →
            sliceBytes fin.out.data off n = sliceBytes st1.out.data off n := by
          intro off n hn hexc
          apply sliceBytes_congr
          intro j hj1 hj2
          refine hagree j (by omega) ?_
          intro b hb'
          rcases hexc b hb' with hx | hx
          · left; omega
          · right; omega
        have hIH := processLoop_good fuel st1 _ fin h hb1 hpair1 huniq1
        intro it hit
        rcases List.mem_cons.mp hit with hit | hit
        · subst hit
          rw [heq, PackedSubtreeOk]
          have hd := uniqueSiblingNames_dir (heq ▸ huniq it (List.mem_cons_self _ _))
          refine ⟨dirHeaderFor name mode modTime cs.length st.out.data.length,
            ?_, ⟨rfl, rfl, rfl, rfl, rfl, ?_⟩, rfl, sortByName_pairwise_lt hd.1, ?_⟩
          · -- the patched header survives at the slot
            have hsl1 : sliceBytes st1.out.data it.fileHeaderOffset 64 =
                encodeFile (dirHeaderFor name mode modTime cs.length
                  st.out.data.length) := by
              have hfit := sliceBytes_storeAt_same
                (st.out.data ++ nameBlob name ++ List.replicate (64 * cs.length) 0)
                it.fileHeaderOffset
                (encodeFile (dirHeaderFor name mode modTime cs.length
                  st.out.data.length))
                (by simp only [List.length_append, List.length_replicate,
                      encodeFile_length]
                    omega)
              rw [encodeFile_length] at hfit
              rw [hdata1]
              exact hfit
            rw [← hsl1]
            apply hpersist
            · omega
            · intro b hb'
              rcases List.mem_append.mp hb' with hb' | hb'
              · left
                have := (hitemmem b (List.mem_reverse.mp hb')).1
                omega
              · rcases hheaddisj b hb' with hx | hx
                · left; omega
                · right; omega
          · -- long names survive out-of-line
            intro hn
            have hblob : nameBlob name = name := by rw [nameBlob, if_pos hn]
            show sliceBytes fin.out.data
              (nameOffsetOf st.out.data.length name) name.length = name
            rw [nameOffsetOf, if_pos hn]
            have hsl1 : sliceBytes st1.out.data st.out.data.length
                (nameBlob name).length = nameBlob name := by
              rw [hdata1, sliceBytes_storeAt_outside _ _ _ _ _
                (by rw [encodeFile_length]; right; omega)]
              exact sliceBytes_append_mid st.out.data (nameBlob name)
                (List.replicate (64 * cs.length) 0)
            rw [hblob] at hsl1
            have hex : ∀ b ∈ items.reverse ++ rest,
                st.out.data.length + name.length ≤ b.fileHeaderOffset ∨
                b.fileHeaderOffset + 64 ≤ st.out.data.length := by
              intro b hb'
              rcases List.mem_append.mp hb' with hb' | hb'
              · left
                have h1 := (hitemmem b (List.mem_reverse.mp hb')).1
                rw [hblob] at h1
                omega
              · right
                have := hb b (List.mem_cons_of_mem _ hb')
                omega
            rw [hpersist st.out.data.length name.length
              (by rw [hlen1, hblob]; omega) hex]
            exact hsl1
          · -- the children's packed subtrees
            show PackedChildrenOk fin.out.data (sortByName cs)
              (dirHeaderFor name mode modTime cs.length st.out.data.length).dataOffset
            by_cases hcs : cs.length = 0
            · have hnil : cs = [] := List.eq_nil_of_length_eq_zero hcs
              subst hnil
              rw [show sortByName ([] : List FSTree) = [] from rfl, PackedChildrenOk]
              trivial
            · have hdOff : (dirHeaderFor name mode modTime cs.length
                  st.out.data.length).dataOffset =
                  st.out.data.length + (nameBlob name).length := by
                simp [dirHeaderFor, if_neg hcs]
              rw [hdOff]
              apply packedChildrenOk_of_buildItems
              intro b hb'
              have hbm : b ∈ items := by rw [hitems]; exact hb'
              exact hIH b (List.mem_append.mpr (Or.inl (List.mem_reverse.mpr hbm)))
        · exact hIH it (List.mem_append.mpr (Or.inr hit))

/-! ## Depth accounting for the writer's `MaxDepth` cap -/

/-- Total node count of a pending stack: each loop iteration pops one node
and pushes only its children, so this strictly decreases and the fuel
`treeSize t + 1` never runs out. -/
def stackSize (l : List QueueItem) : Nat :=
  (l.map (fun it => treeSize it.tree)).sum

theorem stackSize_cons (it : QueueItem) (rest : List QueueItem) :
    stackSize (it :: rest) = treeSize it.tree + stackSize rest := by
  simp [stackSize]

theorem stackSize_append (a b : List QueueItem) :
    stackSize (a ++ b) = stackSize a + stackSize b := by
  simp [stackSize]

theorem stackSize_reverse (a : List QueueItem) :
    stackSize a.reverse = stackSize a := by
  simp only [stackSize, List.map_reverse]
  exact ((a.map (fun it => treeSize it.tree)).reverse_perm).sum_eq

theorem stackSize_buildItems (cs : List FSTree) (base d : Nat) :
    stackSize (buildItems cs base d) = treeSizeList cs := by
  rw [stackSize, treeSizeList_eq_sum]
  have hmap : (buildItems cs base d).map (fun it => treeSize it.tree)
      = cs.map treeSize := by
    rw [show (fun it : QueueItem => treeSize it.tree)
          = treeSize ∘ QueueItem.tree from rfl,
      ← List.map_map, buildItems_map_tree]
  rw [hmap]

mutual
/-- Whether every node strictly below the root of `t` — with `t` itself
reserved at depth `d` — passes the writer's depth check against the cap
`L`: the children of a directory at depth `d` are reserved at `d + 1`,
and the check refuses a reservation whose depth exceeds `L`. -/
def fitsUnder (L : Int) : Nat → FSTree → Bool
  | _, .file _ _ _ _ => true
  | d, .dir _ _ _ cs => fitsUnderList L (d + 1) cs
def fitsUnderList (L : Int) : Nat → List FSTree → Bool
  | _, [] => true
  | d, c :: rest =>
    (decide ((d : Int) ≤ L) && fitsUnder L d c) && fitsUnderList L d rest
end

theorem fitsUnderList_iff {L : Int} {d : Nat} {cs : List FSTree} :
    fitsUnderList L d cs = true ↔
    ∀ c ∈ cs, (d : Int) ≤ L ∧ fitsUnder L d c = true := by
  induction cs with
  | nil => simp [fitsUnderList]
  | cons c rest ih =>
    rw [fitsUnderList, Bool.and_eq_true, Bool.and_eq_true]
    constructor
    · rintro ⟨⟨h1, h2⟩, h3⟩ x hx
      rcases List.mem_cons.mp hx with hx | hx
      · subst hx
        exact ⟨of_decide_eq_true h1, h2⟩
      · exact ih.mp h3 x hx
    · intro h
      refine ⟨⟨decide_eq_true (h c (List.mem_cons_self _ _)).1,
        (h c (List.mem_cons_self _ _)).2⟩,
        ih.mpr fun x hx => h x (List.mem_cons_of_mem _ hx)⟩

mutual
/-- Raising the depth cap preserves fitting. -/
theorem fitsUnder_mono {L L' : Int} (hL : L ≤ L') :
    ∀ (d : Nat) (t : FSTree),
    fitsUnder L d t = true → fitsUnder L' d t = true
  | _, .file _ _ _ _, _ => rfl
  | d, .dir _ _ _ cs, h => fitsUnderList_mono hL (d + 1) cs h
theorem fitsUnderList_mono {L L' : Int} (hL : L ≤ L') :
    ∀ (d : Nat) (cs : List FSTree),
    fitsUnderList L d cs = true → fitsUnderList L' d cs = true
  | _, [], _ => rfl
  | d, c :: rest, h => by
    rw [fitsUnderList, Bool.and_eq_true, Bool.and_eq_true] at h ⊢
    obtain ⟨⟨h1, h2⟩, h3⟩ := h
    exact ⟨⟨decide_eq_true (le_trans (of_decide_eq_true h1) hL),
      fitsUnder_mono hL d c h2⟩, fitsUnderList_mono hL d rest h3⟩
end

/-! ## With no size or entry cap, only the depth check can fail -/

theorem checkWriteLimit_free {s : CreateFSSettings} (h : s.maxOutputSize ≤ 0)
    (n : Nat) : checkWriteLimit s n = .ok () := by
  rw [checkWriteLimit, if_pos h]

theorem wDGL_total {s : CreateFSSettings} (h : s.maxOutputSize ≤ 0)
    (o : OutStream) (bs : List Nat) :
    writeDataAndGetLocation s o bs =
      .ok (OutStream.write { o with offset := o.data.length } bs,
           o.data.length) := by
  simp only [writeDataAndGetLocation, OutStream.seekEnd, checkWriteLimit_free h]

theorem wDAL_total {s : CreateFSSettings} (h : s.maxOutputSize ≤ 0)
    (o : OutStream) (bs : List Nat) (off : Nat) :
    writeDataAtLocation s o bs off =
      .ok (OutStream.write { o with offset := off } bs) := by
  simp only [writeDataAtLocation, OutStream.seekTo, checkWriteLimit_free h]

theorem resultOk_exists {α : Type} {r : Except GoError α}
    (h : resultOk r = true) : ∃ a, r = .ok a := by
  cases r with
  | error e => simp [resultOk] at h
  | ok a => exact ⟨a, rfl⟩

theorem writeFileContent_total {s : CreateFSSettings}
    (h : s.maxOutputSize ≤ 0) (st : WriterState) (name : List Nat)
    (mode modTime : Nat) (content : List Nat) (slot : Nat) :
    ∃ st', writeFileContent s st name mode modTime content slot = .ok st' := by
  apply resultOk_exists
  by_cases hn : 8 < name.length
  · by_cases hc : 0 < content.length
    · simp only [writeFileContent, if_pos hn, if_pos hc, wDGL_total h,
        wrapTag, OutStream.seekEnd, checkWriteLimit_free h, wDAL_total h]
      rfl
    · simp only [writeFileContent, if_pos hn, if_neg hc, wDGL_total h,
        wrapTag, OutStream.seekEnd, checkWriteLimit_free h, wDAL_total h]
      rfl
  · by_cases hc : 0 < content.length
    · simp only [writeFileContent, if_neg hn, if_pos hc, wDGL_total h,
        wrapTag, OutStream.seekEnd, checkWriteLimit_free h, wDAL_total h]
      rfl
    · simp only [writeFileContent, if_neg hn, if_neg hc, wDGL_total h,
        wrapTag, OutStream.seekEnd, checkWriteLimit_free h, wDAL_total h]
      rfl

theorem reserveHAE_total {s : CreateFSSettings}
    (hO : s.maxOutputSize ≤ 0) (hE : s.maxTotalEntries ≤ 0)
    {st : WriterState} {t : FSTree} {depth : Nat}
    (hd : ¬(0 < s.maxDepth ∧ s.maxDepth < (depth : Int))) :
    ∃ r, reserveHeaderAndEnqueue s st t depth = .ok r := by
  apply resultOk_exists
  simp only [reserveHeaderAndEnqueue]
  rw [if_neg (by omega), if_neg hd, wDGL_total hO]
  rfl

theorem reserveHAE_err {s : CreateFSSettings}
    (hO : s.maxOutputSize ≤ 0) (hE : s.maxTotalEntries ≤ 0)
    {st : WriterState} {t : FSTree} {depth : Nat} {e : GoError}
    (h : reserveHeaderAndEnqueue s st t depth = .error e) :
    e = .errorf .depthLimit ∧ 0 < s.maxDepth ∧ s.maxDepth < (depth : Int) := by
  simp only [reserveHeaderAndEnqueue] at h
  rw [if_neg (by omega)] at h
  by_cases hd : 0 < s.maxDepth ∧ s.maxDepth < (depth : Int)
  · rw [if_pos hd] at h
    injection h with h1
    exact ⟨h1.symm, hd⟩
  · rw [if_neg hd, wDGL_total hO] at h
    simp [wrapTag] at h

theorem reserveHAE_ok_depth {s : CreateFSSettings}
    {st : WriterState} {t : FSTree} {depth : Nat}
    {r : WriterState × QueueItem}
    (h : reserveHeaderAndEnqueue s st t depth = .ok r)
    (hL : 0 < s.maxDepth) : (depth : Int) ≤ s.maxDepth := by
  simp only [reserveHeaderAndEnqueue] at h
  split at h
  · exact absurd h (by simp)
  · split at h
    · exact absurd h (by simp)
    · rename_i hd
      rcases not_and_or.mp hd with hx | hx
      · omega
      · omega

theorem wrapTag_err {α : Type} {r : Except GoError α} {t : ErrTag}
    {e : GoError} :
    wrapTag r t = .error e ↔ ∃ e0, r = .error e0 ∧ e = .wrap t e0 := by
  cases r <;> simp [wrapTag, eq_comm]

theorem reserveChildren_total {s : CreateFSSettings}
    (hO : s.maxOutputSize ≤ 0) (hE : s.maxTotalEntries ≤ 0) {d : Nat}
    (hd : ¬(0 < s.maxDepth ∧ s.maxDepth < (d : Int))) :
    ∀ (cs : List FSTree) (st : WriterState),
    ∃ r, reserveChildren s st cs d = .ok r
  | [], st => ⟨(st, []), rfl⟩
  | c :: rest, st => by
    rw [reserveChildren]
    obtain ⟨⟨st1, item⟩, hres⟩ := @reserveHAE_total s hO hE st c d hd
    rw [hres]
    simp only [wrapTag]
    obtain ⟨⟨st2, items⟩, hrest⟩ := reserveChildren_total hO hE hd rest st1
    rw [hrest]
    exact ⟨_, rfl⟩

theorem reserveChildren_err {s : CreateFSSettings}
    (hO : s.maxOutputSize ≤ 0) (hE : s.maxTotalEntries ≤ 0) :
    ∀ (cs : List FSTree) (st : WriterState) (d : Nat) (e : GoError),
    reserveChildren s st cs d = .error e →
    e.containsTag .depthLimit = true ∧ 0 < s.maxDepth ∧
      s.maxDepth < (d : Int)
  | [], st, d, e, h => by simp [reserveChildren] at h
  | c :: rest, st, d, e, h => by
    rw [reserveChildren] at h
    split at h
    · rename_i e0 hw
      injection h with h1
      subst h1
      obtain ⟨e1, hres, hwrap⟩ := wrapTag_err.mp hw
      obtain ⟨he1, hpos, hlt⟩ := reserveHAE_err hO hE hres
      subst hwrap
      subst he1
      exact ⟨by decide, hpos, hlt⟩
    · rename_i st1 item hw
      split at h
      · rename_i e0 hrest
        injection h with h1
        subst h1
        exact reserveChildren_err hO hE rest st1 d e0 hrest
      · exact absurd h (by simp)

theorem reserveChildren_ok_depth {s : CreateFSSettings} {c : FSTree}
    {cs : List FSTree} {st : WriterState} {d : Nat}
    {r : WriterState × List QueueItem}
    (h : reserveChildren s st (c :: cs) d = .ok r)
    (hL : 0 < s.maxDepth) : (d : Int) ≤ s.maxDepth := by
  rw [reserveChildren] at h
  split at h
  · exact absurd h (by simp)
  · rename_i st1 item hw
    exact reserveHAE_ok_depth (wrapTag_ok.mp hw) hL

theorem writeDirContent_err {s : CreateFSSettings}
    (hO : s.maxOutputSize ≤ 0) (hE : s.maxTotalEntries ≤ 0)
    {st : WriterState} {name : List Nat} {mode modTime : Nat}
    {cs : List FSTree} {slot depth : Nat} {e : GoError}
    (h : writeDirContent s st name mode modTime cs slot depth = .error e) :
    e.containsTag .depthLimit = true ∧ 0 < s.maxDepth ∧
      s.maxDepth < ((depth + 1 : Nat) : Int) ∧ cs ≠ [] := by
  simp only [writeDirContent] at h
  split at h
  · rename_i e0 hname
    by_cases hn : 8 < name.length
    · rw [if_pos hn, wDGL_total hO] at hname
      simp [wrapTag] at hname
    · rw [if_neg hn] at hname
      exact absurd hname (by simp)
  · rename_i o1 nameOffset hname
    split at h
    · rename_i hempty
      split at h
      · rename_i e0 hpatch
        rw [wDAL_total hO] at hpatch
        simp [wrapTag] at hpatch
      · exact absurd h (by simp)
    · rename_i hempty
      split at h
      · rename_i e0 hrc
        injection h with h1
        subst h1
        obtain ⟨htag, hpos, hlt⟩ :=
          reserveChildren_err hO hE (sortByName cs) _ (depth + 1) e0 hrc
        refine ⟨htag, hpos, hlt, ?_⟩
        intro hceq
        rw [hceq] at hempty
        exact hempty rfl
      · rename_i st2 items2 hrc
        split at h
        · rename_i e0 hpatch
          rw [wDAL_total hO] at hpatch
          simp [wrapTag] at hpatch
        · exact absurd h (by simp)

theorem writeDirContent_items {s : CreateFSSettings} {st : WriterState}
    {name : List Nat} {mode modTime : Nat} {cs : List FSTree}
    {slot depth : Nat} {st' : WriterState} {items : List QueueItem}
    (h : writeDirContent s st name mode modTime cs slot depth
        = .ok (st', items)) :
    (∃ base, items = buildItems (sortByName cs) base (depth + 1)) ∧
    (cs ≠ [] → 0 < s.maxDepth → ((depth + 1 : Nat) : Int) ≤ s.maxDepth) := by
  simp only [writeDirContent] at h
  split at h
  · exact absurd h (by simp)
  · rename_i o1 nameOffset hname
    split at h
    · rename_i hempty
      have hcs : cs = [] := List.isEmpty_iff.mp hempty
      split at h
      · exact absurd h (by simp)
      · simp only [Except.ok.injEq, Prod.mk.injEq] at h
        refine ⟨⟨0, ?_⟩, fun hne => absurd hcs hne⟩
        rw [← h.2, hcs]
        rfl
    · rename_i hempty
      split at h
      · exact absurd h (by simp)
      · rename_i st2 items2 hrc
        split at h
        · exact absurd h (by simp)
        · rename_i o3 hpatch
          simp only [Except.ok.injEq, Prod.mk.injEq] at h
          obtain ⟨hcdata, hcitems⟩ :=
            reserveChildren_ok (sortByName cs) _ (depth + 1) _ _ hrc
          constructor
          · exact ⟨o1.seekEnd.1.data.length, by rw [← h.2]; exact hcitems⟩
          · intro hne hL
            have hsne : sortByName cs ≠ [] := by
              intro hx
              have hlen := (sortByName_perm cs).length_eq
              rw [hx] at hlen
              exact hne (List.eq_nil_of_length_eq_zero hlen.symm)
            rcases hsp : sortByName cs with _ | ⟨c0, crest⟩
            · exact absurd hsp hsne
            · rw [hsp] at hrc
              exact reserveChildren_ok_depth hrc hL

/-- With no size or entry cap, every failure of the work loop (given
enough fuel) carries the depth-limit error in its chain. -/
theorem processLoop_err {s : CreateFSSettings}
    (hO : s.maxOutputSize ≤ 0) (hE : s.maxTotalEntries ≤ 0) :
    ∀ (fuel : Nat) (st : WriterState) (stack : List QueueItem) (e : GoError),
    stackSize stack < fuel →
    processLoop s fuel st stack = .error e →
    e.containsTag .depthLimit = true
  | 0, _, _, _, hfuel, _ => absurd hfuel (by omega)
  | fuel + 1, st, [], e, _, h => by simp [processLoop] at h
  | fuel + 1, st, item :: rest, e, hfuel, h => by
    rw [stackSize_cons] at hfuel
    simp only [processLoop] at h
    split at h
    · rename_i name mode modTime content heq
      split at h
      · rename_i e0 hw
        obtain ⟨e1, hres, hwrap⟩ := wrapTag_err.mp hw
        obtain ⟨st1, htot⟩ := writeFileContent_total hO st name mode modTime
          content item.fileHeaderOffset
        rw [htot] at hres
        exact absurd hres (by simp)
      · rename_i st1 hw
        have hts : treeSize item.tree = 1 := by rw [heq, treeSize]
        exact processLoop_err hO hE fuel st1 rest e (by omega) h
    · rename_i name mode modTime cs heq
      split at h
      · rename_i e0 hw
        obtain ⟨e1, hres, hwrap⟩ := wrapTag_err.mp hw
        obtain ⟨htag, -, -, -⟩ := writeDirContent_err hO hE hres
        subst hwrap
        injection h with h1
        subst h1
        simp [GoError.containsTag, htag]
      · rename_i st1 items hw
        obtain ⟨⟨base, hitems⟩, -⟩ := writeDirContent_items (wrapTag_ok.mp hw)
        have hts : treeSize item.tree = 1 + treeSizeList cs := by
          rw [heq, treeSize]
        refine processLoop_err hO hE fuel st1 (items.reverse ++ rest) e ?_ h
        rw [stackSize_append, stackSize_reverse, hitems, stackSize_buildItems,
          sortByName_treeSizeList]
        omega

/-- With no size or entry cap, the work loop succeeds whenever every
pending subtree fits under the depth cap. -/
theorem processLoop_total {s : CreateFSSettings}
    (hO : s.maxOutputSize ≤ 0) (hE : s.maxTotalEntries ≤ 0) :
    ∀ (fuel : Nat) (st : WriterState) (stack : List QueueItem),
    stackSize stack < fuel →
    (∀ it ∈ stack,
      s.maxDepth ≤ 0 ∨ fitsUnder s.maxDepth it.depth it.tree = true) →
    ∃ fin, processLoop s fuel st stack = .ok fin
  | 0, _, _, hfuel, _ => absurd hfuel (by omega)
  | fuel + 1, st, [], _, _ => ⟨st, rfl⟩
  | fuel + 1, st, item :: rest, hfuel, hfits => by
    rw [stackSize_cons] at hfuel
    rcases htree : item.tree with ⟨name, mode, modTime, content⟩ |
      ⟨name, mode, modTime, cs⟩
    · obtain ⟨st1, htot⟩ := writeFileContent_total hO st name mode modTime
        content item.fileHeaderOffset
      have hts : treeSize item.tree = 1 := by rw [htree, treeSize]
      obtain ⟨fin, hrec⟩ := processLoop_total hO hE fuel st1 rest (by omega)
        (fun b hb => hfits b (List.mem_cons_of_mem _ hb))
      refine ⟨fin, ?_⟩
      simp only [processLoop, htree, htot, wrapTag]
      exact hrec
    · have hts : treeSize item.tree = 1 + treeSizeList cs := by
        rw [htree, treeSize]
      rcases hwd : writeDirContent s st name mode modTime cs
          item.fileHeaderOffset item.depth with e | ⟨st1, items⟩
      · obtain ⟨-, hpos, hlt, hne⟩ := writeDirContent_err hO hE hwd
        rcases hfits item (List.mem_cons_self _ _) with hfit | hfit
        · exact absurd hfit (by omega)
        · rw [htree, fitsUnder] at hfit
          rcases List.exists_cons_of_ne_nil hne with ⟨c0, crest, hcs⟩
          rw [hcs] at hfit
          have hle := (fitsUnderList_iff.mp hfit c0 (List.mem_cons_self _ _)).1
          exact absurd hle (by omega)
      · obtain ⟨⟨base, hitems⟩, -⟩ := writeDirContent_items hwd
        have hfitall : ∀ b ∈ items.reverse ++ rest,
            s.maxDepth ≤ 0 ∨ fitsUnder s.maxDepth b.depth b.tree = true := by
          intro b hb
          rcases List.mem_append.mp hb with hb | hb
          · rw [List.mem_reverse, hitems] at hb
            obtain ⟨hbtree, hbdepth, -, -⟩ := buildItems_mem hb
            rcases hfits item (List.mem_cons_self _ _) with hfit | hfit
            · exact Or.inl hfit
            · right
              rw [htree, fitsUnder] at hfit
              have hsub := (fitsUnderList_iff.mp hfit b.tree
                (mem_sortByName.mp hbtree)).2
              rw [hbdepth]
              exact hsub
          · exact hfits b (List.mem_cons_of_mem _ hb)
        obtain ⟨fin, hrec⟩ := processLoop_total hO hE fuel st1
          (items.reverse ++ rest)
          (by rw [stackSize_append, stackSize_reverse, hitems,
                stackSize_buildItems, sortByName_treeSizeList]
              omega)
          hfitall
        refine ⟨fin, ?_⟩
        simp only [processLoop, htree, hwd, wrapTag]
        exact hrec

/-- When the work loop succeeds with a positive depth cap, every pending
subtree fit under the cap. -/
theorem processLoop_fits {s : CreateFSSettings}
    (hO : s.maxOutputSize ≤ 0) (hE : s.maxTotalEntries ≤ 0)
    (hL : 0 < s.maxDepth) :
    ∀ (fuel : Nat) (st : WriterState) (stack : List QueueItem)
      (fin : WriterState),
    processLoop s fuel st stack = .ok fin →
    ∀ it ∈ stack, fitsUnder s.maxDepth it.depth it.tree = true
  | 0, st, stack, fin, h => by simp [processLoop] at h
  | fuel + 1, st, [], fin, h => by
    intro it hit
    simp at hit
  | fuel + 1, st, item :: rest, fin, h => by
    simp only [processLoop] at h
    split at h
    · rename_i name mode modTime content heq
      split at h
      · exact absurd h (by simp)
      · rename_i st1 hw
        intro it hit
        rcases List.mem_cons.mp hit with hit | hit
        · subst hit
          rw [heq]
          rfl
        · exact processLoop_fits hO hE hL fuel st1 rest fin h it hit
    · rename_i name mode modTime cs heq
      split at h
      · exact absurd h (by simp)
      · rename_i st1 items hw
        obtain ⟨⟨base, hitems⟩, hdep⟩ := writeDirContent_items (wrapTag_ok.mp hw)
        have hIH := processLoop_fits hO hE hL fuel st1
          (items.reverse ++ rest) fin h
        intro it hit
        rcases List.mem_cons.mp hit with hit | hit
        · subst hit
          rw [heq, fitsUnder]
          apply fitsUnderList_iff.mpr
          intro c hc
          have hne : cs ≠ [] := by
            intro hx
            rw [hx] at hc
            simp at hc
          constructor
          · have hd2 := hdep hne hL
            omega
          · have hc' : c ∈ (buildItems (sortByName cs) base
                (it.depth + 1)).map QueueItem.tree := by
              rw [buildItems_map_tree]
              exact mem_sortByName.mpr hc
            obtain ⟨b, hb, hbtree⟩ := List.mem_map.mp hc'
            have hbdepth := (buildItems_mem hb).2.1
            have hfit := hIH b (List.mem_append.mpr (Or.inl
              (List.mem_reverse.mpr (by rw [hitems]; exact hb))))
            rw [hbdepth, hbtree] at hfit
            exact hfit
        · exact hIH it (List.mem_append.mpr (Or.inr hit))

/-- **C3.** After a successful pack of a source tree with unique sibling
names, every directory in the stream with `n > 0` children has its `n`
child header records at the contiguous slots `DataOffset + i*64` for
`0 ≤ i < n`, and every pair of sibling entries is stored with the earlier
one's base name byte-lexicographically strictly below the later one's
(`PackedSubtreeOk` states exactly this, recursively from the root header
at slot 0: each directory's header decodes at its slot, its sorted
children sit at `h.dataOffset`, `h.dataOffset + 64`, … with strictly
increasing names, and file payloads and long names are intact). -/
theorem c3_sorted_contiguous (t : FSTree) (s : CreateFSSettings)
    (out : List Nat) (huniq : uniqueSiblingNames t = true)
    (hok : CreateSeekerFS t s = .ok out) :
    PackedSubtreeOk out t 0 := by
  simp only [CreateSeekerFS] at hok
  split at hok
  · exact absurd hok (by simp)
  · rename_i st1 rootItem hres
    split at hok
    · exact absurd hok (by simp)
    · rename_i fin hloop
      obtain ⟨hdata1, htree, hdepth, hslot, _⟩ := reserve_ok (wrapTag_ok.mp hres)
      simp only [Except.ok.injEq] at hok
      subst hok
      have hout := processLoop_good (treeSize t + 1) st1 [rootItem] fin
        (wrapTag_ok.mp hloop)
        (by intro it hit
            rw [List.mem_singleton] at hit
            subst hit
            rw [hslot, hdata1]
            simp)
        (by simp)
        (by intro it hit
            rw [List.mem_singleton] at hit
            subst hit
            rw [htree]
            exact huniq)
        rootItem (List.mem_singleton.mpr rfl)
      rw [htree, hslot] at hout
      simpa using hout

set_option maxRecDepth 40000 in
/-- Witness for C3 at a concrete input: the packed stream of the two-file
tree satisfies the sorted-contiguous-children invariant from the root. -/
theorem c3_sorted_contiguous_witness :
    PackedSubtreeOk twoFileBytes twoFileTree 0 :=
  c3_sorted_contiguous twoFileTree noLimits twoFileBytes (by decide)
    (by decide)

/-- A chain of nested directories with a single small file at the bottom:
`chainDepth n`'s deepest node sits at depth `n` when the root is at
depth 0. -/
def chainDepth : Nat → FSTree
  | 0 => .file [102] fileMode 0 [104, 105]
  | n + 1 => .dir [100] dirMode 0 [chainDepth n]

/-- **C7.** If the writer is configured with `MaxDepth = 6` and the source
tree contains a depth-12 path (root at depth 0, so it does not fit under a
cap of 11) while every path fits under a cap of 12, `CreateSeekerFS` fails
with the depth-limit error in its chain; with `MaxDepth` raised to any
value `≥ 12` (and no other caps) the same pack succeeds. -/
theorem c7_depth_limit (t : FSTree) (m : Int)
    (hdeep : fitsUnder 11 0 t = false)
    (hfit : fitsUnder 12 0 t = true)
    (hm : 12 ≤ m) :
    resultHasTag (CreateSeekerFS t
      { maxDepth := 6, maxOutputSize := 0, maxTotalEntries := 0 })
      .depthLimit = true ∧
    resultOk (CreateSeekerFS t
      { maxDepth := m, maxOutputSize := 0, maxTotalEntries := 0 })
      = true := by
  constructor
  · obtain ⟨r1, hres⟩ := @reserveHAE_total
      { maxDepth := 6, maxOutputSize := 0, maxTotalEntries := 0 }
      (by decide) (by decide)
      { out := { data := [], offset := 0 }, totalFilesWritten := 0 } t 0
      (by decide)
    rcases r1 with ⟨st1, rootItem⟩
    obtain ⟨hdata1, htree, hdepth, hslot, -⟩ := reserve_ok hres
    have hss : stackSize [rootItem] = treeSize t := by
      rw [stackSize]
      simp [htree]
    simp only [CreateSeekerFS, hres, wrapTag]
    rcases hloop : processLoop
        { maxDepth := 6, maxOutputSize := 0, maxTotalEntries := 0 }
        (treeSize t + 1) st1 [rootItem] with e | fin
    · have hct := processLoop_err (by decide) (by decide)
        (treeSize t + 1) st1 [rootItem] e (by omega) hloop
      simp [hloop, wrapTag, resultHasTag, GoError.containsTag, hct]
    · have hfits6 := processLoop_fits (by decide) (by decide) (by decide)
        (treeSize t + 1) st1 [rootItem] fin hloop rootItem
        (List.mem_singleton.mpr rfl)
      rw [htree, hdepth] at hfits6
      have hmono := fitsUnder_mono (show (6 : Int) ≤ 11 by decide) 0 t hfits6
      rw [hmono] at hdeep
      simp at hdeep
  · obtain ⟨r1, hres⟩ := @reserveHAE_total
      { maxDepth := m, maxOutputSize := 0, maxTotalEntries := 0 }
      (le_refl 0) (le_refl 0)
      { out := { data := [], offset := 0 }, totalFilesWritten := 0 } t 0
      (by intro hx; omega)
    rcases r1 with ⟨st1, rootItem⟩
    obtain ⟨hdata1, htree, hdepth, hslot, -⟩ := reserve_ok hres
    have hss : stackSize [rootItem] = treeSize t := by
      rw [stackSize]
      simp [htree]
    obtain ⟨fin, hloop⟩ := @processLoop_total
      { maxDepth := m, maxOutputSize := 0, maxTotalEntries := 0 }
      (le_refl 0) (le_refl 0)
      (treeSize t + 1) st1 [rootItem] (by omega)
      (by intro it hit
          rw [List.mem_singleton] at hit
          subst hit
          right
          rw [htree, hdepth]
          exact fitsUnder_mono hm 0 t hfit)
    simp [CreateSeekerFS, hres, wrapTag, hloop, resultOk]

set_option maxRecDepth 40000 in
/-- Witness for C7 at a concrete input: the 12-deep directory chain fails
to pack under `MaxDepth = 6` with the depth-limit error, and packs under
`MaxDepth = 12`. -/
theorem c7_depth_limit_witness :
    fitsUnder 11 0 (chainDepth 12) = false ∧
    fitsUnder 12 0 (chainDepth 12) = true ∧
    (12 : Int) ≤ 12 ∧
    (resultHasTag (CreateSeekerFS (chainDepth 12)
        { maxDepth := 6, maxOutputSize := 0, maxTotalEntries := 0 })
        .depthLimit = true ∧
     resultOk (CreateSeekerFS (chainDepth 12)
        { maxDepth := 12, maxOutputSize := 0, maxTotalEntries := 0 })
        = true) :=
  ⟨by decide, by decide, by decide,
   c7_depth_limit (chainDepth 12) 12 (by decide) (by decide) (by decide)⟩

end SeekerFs
